import Mathlib

/-!
Verification of `interactive-sort` (src/interactive/sort.py).

The Python module is shallowly embedded here:
* `Ordering`, `Ordering.opposite` — the three-valued relation and its involution;
* `TransitivityTable` — the relation store: a dict from ordered pairs of
  distinct dataset elements to `Ordering`, together with the dataset;
* `TransitivityTable.order` / `transitivity_set` — the assert operation with
  its transitive propagation.  The Python recursion
  (`order` → `transitivity_set` → `order`) is rendered with an explicit fuel
  parameter; fuel exhaustion is a distinguished error, and every Python
  exception (`ValueError` for membership / conflict, `KeyError` for a missing
  dict key) is an `Err` value paired with the store state at raise time;
* `Sort'` (the Python class `Sort` — `Sort` is a Lean keyword), `Sort'.merge`,
  `Sort'.sort` — the interruptible bottom-up merge sort over a deque of
  buckets, modelled as a list with front at the head;
* `BaseAgent.process` — the suspend/resume driver loop, parameterized by an
  oracle function; it also returns the list of questions asked and the number
  of merges completed, which the Python code performs but does not record.
-/

namespace InteractiveSort

/-- The `Ordering` enum of the source: `Unknown`, `Lower`, `Higher`. -/
inductive Ordering where
  | Unknown : Ordering
  | Lower : Ordering
  | Higher : Ordering
deriving DecidableEq, Repr

/-- `Ordering.opposite`: `Unknown ↦ Unknown`, `Lower ↦ Higher`, `Higher ↦ Lower`. -/
def Ordering.opposite : Ordering → Ordering
  | .Unknown => .Unknown
  | .Lower => .Higher
  | .Higher => .Lower

/-- The exceptions the Python code can raise from `TransitivityTable.order`,
plus fuel exhaustion (an artifact of the fuel-indexed embedding). -/
inductive Err where
  /-- artifact of the embedding: recursion fuel ran out -/
  | outOfFuel : Err
  /-- `ValueError('origin is not in the dataset')` -/
  | originNotInDataset : Err
  /-- `ValueError('target is not in the dataset')` -/
  | targetNotInDataset : Err
  /-- `ValueError('Ordering already assigned')` — the spec's `ConflictingOrder` -/
  | alreadyAssigned : Err
  /-- `KeyError` from `self.data[(origin, target)]` on a missing key -/
  | keyError : Err
deriving DecidableEq, Repr

/-- The spec's `UnknownElement` error kind: the two membership `ValueError`s. -/
def Err.isUnknownElement : Err → Bool
  | .originNotInDataset => true
  | .targetNotInDataset => true
  | _ => false

/-- The relation store.  `data` is the Python dict (an association list keyed
by ordered pairs), `dataset` the tuple `self._dataset`; `self._elements` is
list membership in `dataset` and `self._datadim` its length. -/
structure TransitivityTable (α : Type) where
  data : List ((α × α) × Ordering)
  dataset : List α
deriving DecidableEq, Repr

variable {α : Type} [DecidableEq α]

/-- `TransitivityTable.__init__`: one `Unknown` entry for every ordered pair
of distinct elements, in the comprehension's iteration order. -/
def TransitivityTable.init (ds : List α) : TransitivityTable α :=
  { data := ds.flatMap fun x =>
      (ds.filter fun y => x ≠ y).map fun y => ((x, y), Ordering.Unknown)
    dataset := ds }

/-- `TransitivityTable.orderof`; `none` models the `KeyError` of a missing key. -/
def TransitivityTable.orderof (t : TransitivityTable α) (origin target : α) :
    Option Ordering :=
  t.data.lookup (origin, target)

/-- `TransitivityTable.ishigher`. -/
def TransitivityTable.ishigher (t : TransitivityTable α) (origin target : α) : Bool :=
  t.orderof origin target == some Ordering.Higher

/-- `TransitivityTable.islower`. -/
def TransitivityTable.islower (t : TransitivityTable α) (origin target : α) : Bool :=
  t.orderof origin target == some Ordering.Lower

/-- `TransitivityTable.dimension`. -/
def TransitivityTable.dimension (t : TransitivityTable α) : Nat :=
  t.dataset.length

/-- Python dict assignment `d[k] = v`: update the entry in place if the key is
present, append otherwise. -/
def dictSet (d : List ((α × α) × Ordering)) (k : α × α) (v : Ordering) :
    List ((α × α) × Ordering) :=
  if (d.lookup k).isSome then
    d.map fun e => if e.1 = k then (k, v) else e
  else d ++ [(k, v)]

/-- `self.data[k] = v` on the store. -/
def TransitivityTable.setPair (t : TransitivityTable α) (k : α × α) (v : Ordering) :
    TransitivityTable α :=
  { t with data := dictSet t.data k v }

/-- The `lowers` list computed at the head of `transitivity_set`. -/
def TransitivityTable.lowersOf (t : TransitivityTable α) (pivot : α) : List α :=
  t.dataset.filter fun x => x ≠ pivot && t.islower x pivot

/-- The `highers` list computed at the head of `transitivity_set`. -/
def TransitivityTable.highersOf (t : TransitivityTable α) (pivot : α) : List α :=
  t.dataset.filter fun x => x ≠ pivot && t.ishigher x pivot

/-- The pairs the nested `for l in lowers: for h in highers:` loop visits,
in iteration order. -/
def tsPairs (t : TransitivityTable α) (pivot : α) : List (α × α) :=
  (t.lowersOf pivot).flatMap fun l => (t.highersOf pivot).map fun h => (l, h)

/-- Result of a store operation: the new store, or the raised exception
together with the store state at raise time (Python mutates in place, so a
propagated exception exposes the partially updated store). -/
abbrev Res (α : Type) := Except (Err × TransitivityTable α) (TransitivityTable α)

/-- The body of the `for` loops of `transitivity_set`, parameterized by the
recursive call to `order` (which the fuel-indexed `order` supplies). -/
def tsLoopAux (ord : TransitivityTable α → α → α → Ordering → Res α) :
    List (α × α) → TransitivityTable α → Res α
  | [], t => .ok t
  | (l, h) :: ps, t =>
    if t.orderof l h ≠ some Ordering.Lower then
      match ord t l h Ordering.Lower with
      | .ok t' => tsLoopAux ord ps t'
      | .error e => .error e
    else tsLoopAux ord ps t

/-- `TransitivityTable.transitivity_set`, parameterized by the recursive
`order` call. -/
def transitivity_setAux (ord : TransitivityTable α → α → α → Ordering → Res α)
    (t : TransitivityTable α) (pivot : α) : Res α :=
  tsLoopAux ord (tsPairs t pivot) t

/-- `TransitivityTable.order`, fuel-indexed.  Checks mirror the source line by
line: membership of `origin` and `target`, the two conflict guards (each
preceded by the dict lookup that can raise `KeyError`), the two symmetric
writes, then `transitivity_set` at `origin` and at `target`. -/
def TransitivityTable.order : Nat → TransitivityTable α → α → α → Ordering → Res α
  | 0, t, _, _, _ => .error (.outOfFuel, t)
  | fuel + 1, t, origin, target, value =>
    if origin ∈ t.dataset then
      if target ∈ t.dataset then
        match t.orderof origin target with
        | none => .error (.keyError, t)
        | some cur =>
          if cur ≠ Ordering.Unknown ∧ cur ≠ value then .error (.alreadyAssigned, t)
          else
            match t.orderof target origin with
            | none => .error (.keyError, t)
            | some cur2 =>
              if cur2 ≠ Ordering.Unknown ∧ cur2 ≠ value.opposite then
                .error (.alreadyAssigned, t)
              else
                let t2 := (t.setPair (origin, target) value).setPair
                  (target, origin) value.opposite
                match transitivity_setAux (TransitivityTable.order fuel) t2 origin with
                | .ok t3 =>
                  match transitivity_setAux (TransitivityTable.order fuel) t3 target with
                  | .ok t4 => .ok t4
                  | .error e => .error e
                | .error e => .error e
      else .error (.targetNotInDataset, t)
    else .error (.originNotInDataset, t)

/-- `TransitivityTable.transitivity_set` at a given fuel. -/
def TransitivityTable.transitivity_set (fuel : Nat) :
    TransitivityTable α → α → Res α :=
  transitivity_setAux (TransitivityTable.order fuel)

/-- State of the `Sort` class (named `Sort'` because `Sort` is a Lean
keyword): dataset, completion flag, relation store, bucket deque (front at the
head), final result and pending question. -/
structure Sort' (α : Type) where
  dataset : List α
  done : Bool
  table : TransitivityTable α
  buckets : List (List α)
  result : Option (List α)
  question : Option (α × α)
deriving DecidableEq, Repr

/-- `Sort.__init__`. -/
def Sort'.init (ds : List α) : Sort' α :=
  { dataset := ds
    done := false
    table := TransitivityTable.init ds
    buckets := ds.map fun x => [x]
    result := none
    question := none }

/-- Outcome of the two-pointer scan inside `Sort.merge`: either the merge
suspends on an `Unknown` pair or it produces the merged bucket. -/
inductive MergeStep (α : Type) where
  | question : α × α → MergeStep α
  | complete : List α → MergeStep α
deriving DecidableEq, Repr

/-- Inner loop of the merge scan: `x :: xs` is the remainder of the first
bucket, the list argument the remainder of the second; `recA` is the recursive
call that consumes from the first bucket.  `none` models the `KeyError` a
missing `orderof` key would raise. -/
def mergeAux (t : TransitivityTable α) (x : α) (xs : List α)
    (recA : List α → List α → Option (MergeStep α)) :
    List α → List α → Option (MergeStep α)
  | [], acc => some (.complete (acc ++ x :: xs))
  | y :: ys, acc =>
    match t.orderof x y with
    | none => none
    | some Ordering.Unknown => some (.question (x, y))
    | some Ordering.Lower => recA (y :: ys) (acc ++ [x])
    | some Ordering.Higher => mergeAux t x xs recA ys (acc ++ [y])

/-- The `while len(a) > 0 and len(b) > 0` scan of `Sort.merge`, with the
trailing `extend` of whichever side is nonempty. -/
def mergeLoop (t : TransitivityTable α) : List α → List α → List α → Option (MergeStep α)
  | [], b, acc => some (.complete (acc ++ b))
  | x :: xs, b, acc => mergeAux t x xs (mergeLoop t xs) b acc

/-- `Sort.merge`: scan the two front buckets; on suspension record the
question and change nothing else; on completion pop both and push the merged
bucket at the back.  `none` models the `IndexError`/`KeyError` cases the
Python code would crash on. -/
def Sort'.merge (s : Sort' α) : Option (Bool × Sort' α) :=
  match s.buckets with
  | a :: b :: rest =>
    match mergeLoop s.table a b [] with
    | none => none
    | some (.question q) => some (false, { s with question := some q })
    | some (.complete m) => some (true, { s with buckets := rest ++ [m] })
  | _ => none

/-- The `while ongoing and len(self.buckets) > 1` loop of `Sort.sort`,
fuel-indexed; returns the final state and the number of merges that returned
`True`. -/
def sortLoop : Nat → Sort' α → Option (Sort' α × Nat)
  | 0, _ => none
  | n + 1, s =>
    if s.buckets.length ≤ 1 then some (s, 0)
    else
      match s.merge with
      | none => none
      | some (false, s') => some (s', 0)
      | some (true, s') =>
        match sortLoop n s' with
        | none => none
        | some (s'', c) => some (s'', c + 1)

/-- `Sort.sort`: the 0-, 1- and many-bucket cases, the merge loop, and the
final `len == 1` completion check.  The loop fuel `s.buckets.length + 1`
always dominates the loop's iteration count, each `True` merge removing one
bucket. -/
def Sort'.sort (s : Sort' α) : Option (Sort' α × Nat) :=
  match s.buckets with
  | [] => some ({ s with done := true, result := some [] }, 0)
  | [b] => some ({ s with done := true, result := some b }, 0)
  | _ =>
    match sortLoop (s.buckets.length + 1) s with
    | none => none
    | some (s', c) =>
      match s'.buckets with
      | [b] => some ({ s' with done := true, result := some b }, c)
      | _ => some (s', c)

/-- `BaseAgent.process`, parameterized by the oracle that subclasses realize
through `ask`/`retrieve_ordering`.  Besides the final result it accumulates
the list of questions asked (in order) and the number of completed merges.
`none` models both a crash (a propagated exception) and fuel exhaustion. -/
def BaseAgent.process (oracle : α → α → Ordering) (orderFuel : Nat) :
    Nat → Sort' α → List (α × α) → Nat → Option (List α × List (α × α) × Nat)
  | 0, _, _, _ => none
  | n + 1, s, qs, merges =>
    if s.done then
      match s.result with
      | some r => some (r, qs.reverse, merges)
      | none => none
    else
      match s.sort with
      | none => none
      | some (s1, c) =>
        match s1.question with
        | some (a, b) =>
          match TransitivityTable.order orderFuel s1.table a b (oracle a b) with
          | .ok tb =>
            BaseAgent.process oracle orderFuel n
              { s1 with table := tb, question := none } ((a, b) :: qs) (merges + c)
          | .error _ => none
        | none =>
          BaseAgent.process oracle orderFuel n
            { s1 with question := none } qs (merges + c)

/-- Run the driver on a dataset from the freshly initialized `Sort` state. -/
def BaseAgent.run (oracle : α → α → Ordering) (orderFuel loopFuel : Nat)
    (ds : List α) : Option (List α × List (α × α) × Nat) :=
  BaseAgent.process oracle orderFuel loopFuel (Sort'.init ds) [] 0

end InteractiveSort

/-! ### Basic properties of `Ordering` and the association-list dictionary -/

namespace InteractiveSort

variable {α : Type} [DecidableEq α]

theorem Ordering.opposite_opposite (o : Ordering) : o.opposite.opposite = o := by
  cases o <;> rfl

theorem Ordering.opposite_eq_iff {o v : Ordering} : o.opposite = v ↔ o = v.opposite := by
  cases o <;> cases v <;> simp [Ordering.opposite]

/-- `List.lookup` on a cons cell, with propositional equality. -/
theorem lookup_cons_eq {β : Type} (k k' : α × α) (v : β) (d : List ((α × α) × β)) :
    ((k, v) :: d).lookup k' = if k' = k then some v else d.lookup k' := by
  by_cases h : k' = k
  · have hb : (k' == k) = true := by simp [h]
    simp [List.lookup, hb, h]
  · have hb : (k' == k) = false := by simp [h]
    simp [List.lookup, hb, h]

theorem lookup_append {β : Type} (d₁ d₂ : List ((α × α) × β)) (k : α × α) :
    (d₁ ++ d₂).lookup k = ((d₁.lookup k).or (d₂.lookup k)) := by
  induction d₁ with
  | nil => simp
  | cons e es ih =>
    obtain ⟨ke, ve⟩ := e
    rw [List.cons_append, lookup_cons_eq, lookup_cons_eq]
    by_cases h : k = ke <;> simp [h, ih]

theorem lookup_map_update (d : List ((α × α) × Ordering)) (k k' : α × α) (v : Ordering)
    (h : k' ≠ k) :
    (d.map fun e => if e.1 = k then (k, v) else e).lookup k' = d.lookup k' := by
  induction d with
  | nil => simp
  | cons e es ih =>
    obtain ⟨ke, ve⟩ := e
    by_cases hke : ke = k
    · subst hke
      simp [lookup_cons_eq, h, ih]
    · simp [lookup_cons_eq, hke, ih]

theorem lookup_map_update_self (d : List ((α × α) × Ordering)) (k : α × α) (v : Ordering)
    (hk : (d.lookup k).isSome) :
    (d.map fun e => if e.1 = k then (k, v) else e).lookup k = some v := by
  induction d with
  | nil => simp at hk
  | cons e es ih =>
    obtain ⟨ke, ve⟩ := e
    by_cases hke : ke = k
    · subst hke
      simp [lookup_cons_eq]
    · rw [lookup_cons_eq, if_neg (Ne.symm hke)] at hk
      simp [lookup_cons_eq, hke, Ne.symm hke, ih hk]

theorem lookup_dictSet (d : List ((α × α) × Ordering)) (k k' : α × α) (v : Ordering)
    (hk : (d.lookup k).isSome) :
    (dictSet d k v).lookup k' = if k' = k then some v else d.lookup k' := by
  rw [dictSet, if_pos hk]
  by_cases h : k' = k
  · rw [if_pos h, h, lookup_map_update_self d k v hk]
  · rw [if_neg h, lookup_map_update d k k' v h]

theorem keys_dictSet (d : List ((α × α) × Ordering)) (k : α × α) (v : Ordering)
    (hk : (d.lookup k).isSome) :
    (dictSet d k v).map Prod.fst = d.map Prod.fst := by
  rw [dictSet, if_pos hk, List.map_map]
  refine List.map_congr_left fun e _ => ?_
  by_cases h : e.1 = k <;> simp [h]

theorem length_dictSet (d : List ((α × α) × Ordering)) (k : α × α) (v : Ordering)
    (hk : (d.lookup k).isSome) :
    (dictSet d k v).length = d.length := by
  rw [dictSet, if_pos hk, List.length_map]

/-- With nodup keys, any entry agrees with `lookup` at its key. -/
theorem lookup_of_mem_nodup {d : List ((α × α) × Ordering)} {k : α × α} {v : Ordering}
    (hnd : (d.map Prod.fst).Nodup) (hmem : (k, v) ∈ d) : d.lookup k = some v := by
  induction d with
  | nil => simp at hmem
  | cons e es ih =>
    obtain ⟨ke, ve⟩ := e
    rw [List.map_cons, List.nodup_cons] at hnd
    rcases List.mem_cons.mp hmem with h | h
    · obtain ⟨rfl, rfl⟩ := Prod.mk.injEq .. ▸ h
      rw [lookup_cons_eq, if_pos rfl]
    · have hne : k ≠ ke := by
        rintro rfl
        exact hnd.1 (List.mem_map.mpr ⟨(k, v), h, rfl⟩)
      rw [lookup_cons_eq, if_neg hne]
      exact ih hnd.2 h

/-- Writing the value an entry already holds is a no-op (with nodup keys). -/
theorem dictSet_self {d : List ((α × α) × Ordering)} {k : α × α} {v : Ordering}
    (hnd : (d.map Prod.fst).Nodup) (hv : d.lookup k = some v) : dictSet d k v = d := by
  rw [dictSet, if_pos (by simp [hv])]
  refine List.ext_getElem (by simp) fun i h1 h2 => ?_
  simp only [List.getElem_map]
  by_cases h : d[i].1 = k
  · rw [if_pos h]
    have hm : (d[i].1, d[i].2) ∈ d := by simpa using List.getElem_mem h2
    rw [h] at hm
    have h3 := lookup_of_mem_nodup hnd hm
    rw [hv] at h3
    exact Prod.ext_iff.mpr ⟨h.symm, Option.some_inj.mp h3⟩
  · rw [if_neg h]

/-! ### The initial table and the store invariants -/

theorem lookup_map_pair {β : Type} (l : List α) (x a b : α) (c : β) :
    ((l.map fun y => ((x, y), c)).lookup (a, b)) = if a = x ∧ b ∈ l then some c else none := by
  induction l with
  | nil => simp
  | cons y ys ih =>
    rw [List.map_cons, lookup_cons_eq, ih]
    by_cases hax : a = x
    · subst hax
      by_cases hby : b = y
      · subst hby
        simp [Prod.ext_iff]
      · simp [Prod.ext_iff, hby]
    · simp [Prod.ext_iff, hax]

theorem lookup_init_flatMap (l ds : List α) (a b : α) :
    ((l.flatMap fun x =>
        (ds.filter fun y => x ≠ y).map fun y => ((x, y), Ordering.Unknown)).lookup (a, b))
      = if a ∈ l ∧ b ∈ ds ∧ a ≠ b then some Ordering.Unknown else none := by
  induction l with
  | nil => simp
  | cons x xs ih =>
    rw [List.flatMap_cons, lookup_append, lookup_map_pair, ih]
    by_cases hax : a = x
    · subst hax
      by_cases hb : b ∈ ds ∧ a ≠ b
      · simp [List.mem_filter, hb.1, hb.2]
      · rw [Decidable.not_and_iff_or_not] at hb
        rcases hb with hb | hb
        · simp [List.mem_filter, hb]
        · rw [Decidable.not_not] at hb
          simp [List.mem_filter, hb]
    · simp only [List.mem_cons, List.mem_filter]
      simp [hax]

theorem init_orderof (ds : List α) (x y : α) :
    (TransitivityTable.init ds).orderof x y =
      if x ∈ ds ∧ y ∈ ds ∧ x ≠ y then some Ordering.Unknown else none := by
  rw [TransitivityTable.orderof, TransitivityTable.init]
  exact lookup_init_flatMap ds ds x y

/-- Well-formedness of a store: the key set is exactly the ordered pairs of
distinct dataset elements, keys are not duplicated, and the two directions of
every pair hold opposite values. -/
structure WF (t : TransitivityTable α) : Prop where
  dom : ∀ x y : α, (t.orderof x y).isSome ↔ x ∈ t.dataset ∧ y ∈ t.dataset ∧ x ≠ y
  antisym : ∀ x y : α, ∀ v : Ordering, t.orderof x y = some v → t.orderof y x = some v.opposite
  keysNodup : (t.data.map Prod.fst).Nodup

/-- The resolved-Lower relation of a store. -/
def KnownLower (t : TransitivityTable α) (x y : α) : Prop :=
  t.orderof x y = some Ordering.Lower

/-- The known-Lower relation is transitively closed. -/
def Closed (t : TransitivityTable α) : Prop :=
  ∀ x y z : α, KnownLower t x y → KnownLower t y z → KnownLower t x z

/-- The store invariant: well-formed and transitively closed. -/
def Inv (t : TransitivityTable α) : Prop := WF t ∧ Closed t

theorem WF.orderof_diag_eq_none {t : TransitivityTable α} (hwf : WF t) (x : α) :
    t.orderof x x = none := by
  have := hwf.dom x x
  cases h : t.orderof x x with
  | none => rfl
  | some v => simp [h] at this

theorem WF.ne_of_orderof_some {t : TransitivityTable α} (hwf : WF t) {x y : α}
    {v : Ordering} (h : t.orderof x y = some v) :
    x ∈ t.dataset ∧ y ∈ t.dataset ∧ x ≠ y :=
  (hwf.dom x y).mp (by simp [h])

theorem KnownLower.irrefl {t : TransitivityTable α} (hwf : WF t) (x : α) :
    ¬ KnownLower t x x := by
  intro h
  rw [KnownLower, hwf.orderof_diag_eq_none] at h
  cases h

theorem wf_init {ds : List α} (hnd : ds.Nodup) : WF (TransitivityTable.init ds) := by
  refine ⟨fun x y => ?_, fun x y v h => ?_, ?_⟩
  · rw [init_orderof]
    by_cases h : x ∈ ds ∧ y ∈ ds ∧ x ≠ y <;> simp [h, TransitivityTable.init]
  · rw [init_orderof] at h ⊢
    by_cases hc : x ∈ ds ∧ y ∈ ds ∧ x ≠ y
    · rw [if_pos hc] at h
      obtain rfl : Ordering.Unknown = v := by simpa using h
      rw [if_pos ⟨hc.2.1, hc.1, hc.2.2.symm⟩]
      rfl
    · rw [if_neg hc] at h
      cases h
  · rw [TransitivityTable.init, List.map_flatMap]
    refine List.nodup_flatMap.mpr ⟨fun x _ => ?_, ?_⟩
    · rw [List.map_map]
      exact (List.Nodup.filter _ hnd).map fun a b hab => by simpa using hab
    · refine List.Pairwise.imp ?_ hnd
      intro x x' hxx'
      rw [Function.onFun, List.disjoint_left]
      intro p hp hp'
      simp only [List.map_map, List.mem_map] at hp hp'
      obtain ⟨y, _, rfl⟩ := hp
      obtain ⟨y', _, h⟩ := hp'
      exact hxx' (congrArg Prod.fst h).symm

theorem closed_init (ds : List α) : Closed (TransitivityTable.init ds) := by
  intro x y z hxy _
  rw [KnownLower, init_orderof] at hxy
  by_cases h : x ∈ ds ∧ y ∈ ds ∧ x ≠ y <;> simp [h] at hxy

theorem inv_init {ds : List α} (hnd : ds.Nodup) : Inv (TransitivityTable.init ds) :=
  ⟨wf_init hnd, closed_init ds⟩

/-! ### The symmetric double write performed by `order` -/

theorem setPair_dataset (t : TransitivityTable α) (k : α × α) (v : Ordering) :
    (t.setPair k v).dataset = t.dataset := rfl

theorem orderof_setPair (t : TransitivityTable α) (k : α × α) (v : Ordering) (x y : α)
    (hk : (t.orderof k.1 k.2).isSome) :
    (t.setPair k v).orderof x y = if (x, y) = k then some v else t.orderof x y := by
  rw [TransitivityTable.setPair, TransitivityTable.orderof]
  exact lookup_dictSet t.data k (x, y) v hk

/-- The two writes `data[(o,tg)] = v; data[(tg,o)] = v.opposite`. -/
theorem orderof_write2 (t : TransitivityTable α) (o tg : α) (v : Ordering) (x y : α)
    (h1 : (t.orderof o tg).isSome) (h2 : (t.orderof tg o).isSome) (hne : o ≠ tg) :
    ((t.setPair (o, tg) v).setPair (tg, o) v.opposite).orderof x y =
      if (x, y) = (tg, o) then some v.opposite
      else if (x, y) = (o, tg) then some v
      else t.orderof x y := by
  have hs1 : ((t.setPair (o, tg) v).orderof tg o).isSome := by
    rw [orderof_setPair t (o, tg) v tg o h1, if_neg (by simp [Prod.ext_iff, hne.symm])]
    exact h2
  rw [orderof_setPair _ (tg, o) _ x y hs1, orderof_setPair t (o, tg) v x y h1]

theorem write2_dataset (t : TransitivityTable α) (o tg : α) (v : Ordering) :
    ((t.setPair (o, tg) v).setPair (tg, o) v.opposite).dataset = t.dataset := rfl

theorem wf_write2 {t : TransitivityTable α} (hwf : WF t) {o tg : α} (v : Ordering)
    (h1 : (t.orderof o tg).isSome) :
    WF ((t.setPair (o, tg) v).setPair (tg, o) v.opposite) := by
  obtain ⟨ho, htg, hne⟩ := (hwf.dom o tg).mp h1
  have h2 : (t.orderof tg o).isSome := (hwf.dom tg o).mpr ⟨htg, ho, hne.symm⟩
  refine ⟨fun x y => ?_, fun x y w h => ?_, ?_⟩
  · rw [orderof_write2 t o tg v x y h1 h2 hne, write2_dataset]
    by_cases e1 : (x, y) = (tg, o)
    · obtain ⟨rfl, rfl⟩ := Prod.ext_iff.mp e1
      simp [htg, ho, hne.symm]
    · by_cases e2 : (x, y) = (o, tg)
      · obtain ⟨rfl, rfl⟩ := Prod.ext_iff.mp e2
        simp [e1, ho, htg, hne]
      · rw [if_neg e1, if_neg e2]
        exact hwf.dom x y
  · rw [orderof_write2 t o tg v x y h1 h2 hne] at h
    rw [orderof_write2 t o tg v y x h1 h2 hne]
    by_cases e1 : (x, y) = (tg, o)
    · obtain ⟨rfl, rfl⟩ := Prod.ext_iff.mp e1
      rw [if_pos rfl] at h
      rw [if_neg (by simp [Prod.ext_iff, hne]), if_pos rfl]
      obtain rfl := Option.some_inj.mp h
      rw [Ordering.opposite_opposite]
    · by_cases e2 : (x, y) = (o, tg)
      · obtain ⟨rfl, rfl⟩ := Prod.ext_iff.mp e2
        rw [if_neg e1, if_pos rfl] at h
        rw [if_pos rfl]
        obtain rfl := Option.some_inj.mp h
        rfl
      · rw [if_neg e1, if_neg e2] at h
        have e1' : (y, x) ≠ (tg, o) := by
          intro hc
          obtain ⟨rfl, rfl⟩ := Prod.ext_iff.mp hc
          exact e2 rfl
        have e2' : (y, x) ≠ (o, tg) := by
          intro hc
          obtain ⟨rfl, rfl⟩ := Prod.ext_iff.mp hc
          exact e1 rfl
        rw [if_neg e1', if_neg e2']
        exact hwf.antisym x y w h
  · rw [TransitivityTable.setPair, TransitivityTable.setPair]
    have k1 : (dictSet t.data (o, tg) v).map Prod.fst = t.data.map Prod.fst :=
      keys_dictSet t.data (o, tg) v h1
    have hs1 : ((dictSet t.data (o, tg) v).lookup (tg, o)).isSome := by
      have := orderof_setPair t (o, tg) v tg o h1
      rw [TransitivityTable.setPair, TransitivityTable.orderof] at this
      rw [this, if_neg (by simp [Prod.ext_iff, hne.symm])]
      exact h2
    rw [keys_dictSet _ (tg, o) _ hs1, k1]
    exact hwf.keysNodup

/-! ### Decomposing a successful `order` call -/

theorem order_ok_elim {f : Nat} {t t' : TransitivityTable α} {o tg : α} {v : Ordering}
    (h : TransitivityTable.order f t o tg v = .ok t') :
    ∃ (g : Nat) (cur cur2 : Ordering) (t3 : TransitivityTable α),
      f = g + 1 ∧ o ∈ t.dataset ∧ tg ∈ t.dataset ∧
      t.orderof o tg = some cur ∧ ¬(cur ≠ Ordering.Unknown ∧ cur ≠ v) ∧
      t.orderof tg o = some cur2 ∧ ¬(cur2 ≠ Ordering.Unknown ∧ cur2 ≠ v.opposite) ∧
      tsLoopAux (TransitivityTable.order g)
        (tsPairs ((t.setPair (o, tg) v).setPair (tg, o) v.opposite) o)
        ((t.setPair (o, tg) v).setPair (tg, o) v.opposite) = .ok t3 ∧
      tsLoopAux (TransitivityTable.order g) (tsPairs t3 tg) t3 = .ok t' := by
  cases f with
  | zero => exact absurd h (by simp [TransitivityTable.order])
  | succ g =>
    simp only [TransitivityTable.order, transitivity_setAux] at h
    split at h
    case isFalse => cases h
    case isTrue ho =>
      split at h
      case isFalse => cases h
      case isTrue htg =>
        split at h
        case h_1 => cases h
        case h_2 cur hc =>
          split at h
          case isTrue => cases h
          case isFalse g1 =>
            split at h
            case h_1 => cases h
            case h_2 cur2 hc2 =>
              split at h
              case isTrue => cases h
              case isFalse g2 =>
                split at h
                case h_2 => cases h
                case h_1 t3 h3 =>
                  split at h
                  case h_2 => cases h
                  case h_1 t4 h4 =>
                    obtain rfl := Except.ok.injEq .. ▸ h
                    exact ⟨g, cur, cur2, t3, rfl, ho, htg, hc, g1, hc2, g2, h3,
                      Option.some.injEq .. ▸ h4⟩

/-- The two symmetric writes never discard a known `Lower` fact, given the
conflict guards passed. -/
theorem knownLower_write2 {t : TransitivityTable α} (hwf : WF t) {o tg : α}
    {v cur cur2 : Ordering}
    (hc : t.orderof o tg = some cur) (hc2 : t.orderof tg o = some cur2)
    (g1 : ¬(cur ≠ Ordering.Unknown ∧ cur ≠ v))
    (g2 : ¬(cur2 ≠ Ordering.Unknown ∧ cur2 ≠ v.opposite)) :
    ∀ x y : α, KnownLower t x y →
      KnownLower ((t.setPair (o, tg) v).setPair (tg, o) v.opposite) x y := by
  obtain ⟨ho, htg, hne⟩ := hwf.ne_of_orderof_some hc
  intro x y hxy
  rw [KnownLower, orderof_write2 t o tg v x y (by simp [hc]) (by simp [hc2]) hne]
  by_cases e1 : (x, y) = (tg, o)
  · obtain ⟨rfl, rfl⟩ := Prod.ext_iff.mp e1
    rw [KnownLower, hc2] at hxy
    obtain rfl : cur2 = Ordering.Lower := by simpa using hxy
    rcases not_and_or.mp g2 with h' | h'
    · simp at h'
    · have hv : Ordering.Lower = v.opposite := by simpa using h'
      rw [if_pos rfl, ← hv]
  · by_cases e2 : (x, y) = (o, tg)
    · obtain ⟨rfl, rfl⟩ := Prod.ext_iff.mp e2
      rw [KnownLower, hc] at hxy
      obtain rfl : cur = Ordering.Lower := by simpa using hxy
      rcases not_and_or.mp g1 with h' | h'
      · simp at h'
      · have hv : Ordering.Lower = v := by simpa using h'
        rw [if_neg e1, if_pos rfl, ← hv]
    · rw [if_neg e1, if_neg e2]
      exact hxy

/-! ### Fuel induction: well-formedness, dataset stability, monotonicity -/

theorem order_loop_wf_mono (f : Nat) :
    (∀ (t t' : TransitivityTable α) (o tg : α) (v : Ordering), WF t →
       TransitivityTable.order f t o tg v = .ok t' →
       WF t' ∧ t'.dataset = t.dataset ∧
         ∀ x y, KnownLower t x y → KnownLower t' x y) ∧
    (∀ (ps : List (α × α)) (t t' : TransitivityTable α), WF t →
       tsLoopAux (TransitivityTable.order f) ps t = .ok t' →
       WF t' ∧ t'.dataset = t.dataset ∧
         ∀ x y, KnownLower t x y → KnownLower t' x y) := by
  induction f with
  | zero =>
    constructor
    · intro t t' o tg v _ h
      exact absurd h (by simp [TransitivityTable.order])
    · intro ps
      induction ps with
      | nil =>
        intro t t' hwf h
        obtain rfl : t = t' := by simpa [tsLoopAux] using h
        exact ⟨hwf, rfl, fun _ _ hx => hx⟩
      | cons p ps ih =>
        obtain ⟨l, hd⟩ := p
        intro t t' hwf h
        rw [tsLoopAux] at h
        split at h
        · split at h
          case h_1 u hu => exact absurd hu (by simp [TransitivityTable.order])
          case h_2 => cases h
        · exact ih t t' hwf h
  | succ g ihg =>
    have hord : ∀ (t t' : TransitivityTable α) (o tg : α) (v : Ordering), WF t →
        TransitivityTable.order (g + 1) t o tg v = .ok t' →
        WF t' ∧ t'.dataset = t.dataset ∧
          ∀ x y, KnownLower t x y → KnownLower t' x y := by
      intro t t' o tg v hwf h
      obtain ⟨g', cur, cur2, t3, hg, ho, htg, hc, g1, hc2, g2, h3, h4⟩ := order_ok_elim h
      obtain rfl : g' = g := by omega
      have hwf2 : WF ((t.setPair (o, tg) v).setPair (tg, o) v.opposite) :=
        wf_write2 hwf v (by simp [hc])
      obtain ⟨hwf3, hds3, hmono3⟩ := ihg.2 _ _ _ hwf2 h3
      obtain ⟨hwf4, hds4, hmono4⟩ := ihg.2 _ _ _ hwf3 h4
      refine ⟨hwf4, by rw [hds4, hds3, write2_dataset], fun x y hxy => ?_⟩
      exact hmono4 x y (hmono3 x y (knownLower_write2 hwf hc hc2 g1 g2 x y hxy))
    refine ⟨hord, fun ps => ?_⟩
    induction ps with
    | nil =>
      intro t t' hwf h
      obtain rfl : t = t' := by simpa [tsLoopAux] using h
      exact ⟨hwf, rfl, fun _ _ hx => hx⟩
    | cons p ps ih =>
      obtain ⟨l, hd⟩ := p
      intro t t' hwf h
      rw [tsLoopAux] at h
      split at h
      · split at h
        case h_1 u hu =>
          obtain ⟨hwfu, hdsu, hmonou⟩ := hord _ _ _ _ _ hwf hu
          obtain ⟨hwf', hds', hmono'⟩ := ih _ _ hwfu h
          exact ⟨hwf', by rw [hds', hdsu], fun x y hxy => hmono' x y (hmonou x y hxy)⟩
        case h_2 => cases h
      · exact ih t t' hwf h

theorem order_ok_wf {f : Nat} {t t' : TransitivityTable α} {o tg : α} {v : Ordering}
    (hwf : WF t) (h : TransitivityTable.order f t o tg v = .ok t') : WF t' :=
  ((order_loop_wf_mono f).1 t t' o tg v hwf h).1

theorem order_ok_dataset {f : Nat} {t t' : TransitivityTable α} {o tg : α} {v : Ordering}
    (hwf : WF t) (h : TransitivityTable.order f t o tg v = .ok t') :
    t'.dataset = t.dataset :=
  ((order_loop_wf_mono f).1 t t' o tg v hwf h).2.1

theorem order_ok_mono {f : Nat} {t t' : TransitivityTable α} {o tg : α} {v : Ordering}
    (hwf : WF t) (h : TransitivityTable.order f t o tg v = .ok t') :
    ∀ x y, KnownLower t x y → KnownLower t' x y :=
  ((order_loop_wf_mono f).1 t t' o tg v hwf h).2.2

theorem loop_ok_wf {f : Nat} {ps : List (α × α)} {t t' : TransitivityTable α}
    (hwf : WF t) (h : tsLoopAux (TransitivityTable.order f) ps t = .ok t') : WF t' :=
  ((order_loop_wf_mono f).2 ps t t' hwf h).1

theorem loop_ok_dataset {f : Nat} {ps : List (α × α)} {t t' : TransitivityTable α}
    (hwf : WF t) (h : tsLoopAux (TransitivityTable.order f) ps t = .ok t') :
    t'.dataset = t.dataset :=
  ((order_loop_wf_mono f).2 ps t t' hwf h).2.1

theorem loop_ok_mono {f : Nat} {ps : List (α × α)} {t t' : TransitivityTable α}
    (hwf : WF t) (h : tsLoopAux (TransitivityTable.order f) ps t = .ok t') :
    ∀ x y, KnownLower t x y → KnownLower t' x y :=
  ((order_loop_wf_mono f).2 ps t t' hwf h).2.2

/-! ### Upper bound: everything `order` writes lies in the transitive closure -/

/-- The known-Lower relation extended with the edge being asserted. -/
def Radd (t : TransitivityTable α) (o tg : α) (v : Ordering) (x y : α) : Prop :=
  KnownLower t x y ∨ (v = Ordering.Lower ∧ x = o ∧ y = tg) ∨
    (v = Ordering.Higher ∧ x = tg ∧ y = o)

theorem transGen_le_of_transitive {β : Type} {r u : β → β → Prop}
    (hru : ∀ x y, r x y → u x y) (hu : Transitive u) :
    ∀ x y, Relation.TransGen r x y → u x y := by
  intro x y h
  have := Relation.TransGen.mono hru h
  rwa [Relation.transGen_eq_self hu] at this

theorem islower_iff {t : TransitivityTable α} {x y : α} :
    t.islower x y = true ↔ KnownLower t x y := by
  rw [TransitivityTable.islower, KnownLower]
  exact beq_iff_eq

theorem ishigher_iff {t : TransitivityTable α} {x y : α} :
    t.ishigher x y = true ↔ t.orderof x y = some Ordering.Higher := by
  rw [TransitivityTable.ishigher]
  exact beq_iff_eq

theorem mem_tsPairs {t : TransitivityTable α} {pivot : α} {p : α × α} :
    p ∈ tsPairs t pivot ↔
      (p.1 ∈ t.dataset ∧ p.1 ≠ pivot ∧ KnownLower t p.1 pivot) ∧
      (p.2 ∈ t.dataset ∧ p.2 ≠ pivot ∧ t.orderof p.2 pivot = some Ordering.Higher) := by
  obtain ⟨l, h⟩ := p
  rw [tsPairs, List.mem_flatMap]
  constructor
  · rintro ⟨l', hl', hmem⟩
    obtain ⟨h', hh', heq⟩ := List.mem_map.mp hmem
    obtain ⟨rfl, rfl⟩ := Prod.ext_iff.mp heq.symm
    rw [TransitivityTable.lowersOf, List.mem_filter] at hl'
    rw [TransitivityTable.highersOf, List.mem_filter] at hh'
    obtain ⟨hm1, hb1⟩ := hl'
    obtain ⟨hm2, hb2⟩ := hh'
    rw [Bool.and_eq_true, decide_eq_true_eq, islower_iff] at hb1
    rw [Bool.and_eq_true, decide_eq_true_eq, ishigher_iff] at hb2
    exact ⟨⟨hm1, hb1.1, hb1.2⟩, ⟨hm2, hb2.1, hb2.2⟩⟩
  · rintro ⟨⟨hm1, hne1, hlow⟩, ⟨hm2, hne2, hhigh⟩⟩
    refine ⟨l, ?_, List.mem_map.mpr ⟨h, ?_, rfl⟩⟩
    · rw [TransitivityTable.lowersOf, List.mem_filter]
      exact ⟨hm1, by rw [Bool.and_eq_true, decide_eq_true_eq, islower_iff]; exact ⟨hne1, hlow⟩⟩
    · rw [TransitivityTable.highersOf, List.mem_filter]
      exact ⟨hm2, by rw [Bool.and_eq_true, decide_eq_true_eq, ishigher_iff]; exact ⟨hne2, hhigh⟩⟩

/-- Every pair `transitivity_set` visits is already a two-step chain through
the pivot. -/
theorem tsPairs_transGen {t : TransitivityTable α} (hwf : WF t) {pivot : α} :
    ∀ p ∈ tsPairs t pivot, Relation.TransGen (KnownLower t) p.1 p.2 := by
  intro p hp
  obtain ⟨⟨_, _, hlow⟩, ⟨_, _, hhigh⟩⟩ := mem_tsPairs.mp hp
  have hup : KnownLower t pivot p.2 := by
    have := hwf.antisym p.2 pivot Ordering.Higher hhigh
    exact this
  exact Relation.TransGen.head hlow (Relation.TransGen.single hup)

/-- The two symmetric writes only add the asserted edge to the known-Lower
relation. -/
theorem knownLower_write2_subset {t : TransitivityTable α} {o tg : α}
    {v cur cur2 : Ordering}
    (hc : t.orderof o tg = some cur) (hc2 : t.orderof tg o = some cur2) (hne : o ≠ tg) :
    ∀ x y : α, KnownLower ((t.setPair (o, tg) v).setPair (tg, o) v.opposite) x y →
      Radd t o tg v x y := by
  intro x y hxy
  rw [KnownLower, orderof_write2 t o tg v x y (by simp [hc]) (by simp [hc2]) hne] at hxy
  by_cases e1 : (x, y) = (tg, o)
  · obtain ⟨rfl, rfl⟩ := Prod.ext_iff.mp e1
    rw [if_pos rfl] at hxy
    obtain hv : v.opposite = Ordering.Lower := by simpa using hxy
    have : v = Ordering.Higher := by cases v <;> simp_all [Ordering.opposite]
    exact Or.inr (Or.inr ⟨this, rfl, rfl⟩)
  · by_cases e2 : (x, y) = (o, tg)
    · obtain ⟨rfl, rfl⟩ := Prod.ext_iff.mp e2
      rw [if_neg e1, if_pos rfl] at hxy
      obtain rfl : v = Ordering.Lower := by simpa using hxy
      exact Or.inr (Or.inl ⟨rfl, rfl, rfl⟩)
    · rw [if_neg e1, if_neg e2] at hxy
      exact Or.inl hxy

theorem order_loop_bound (f : Nat) :
    (∀ (t t' : TransitivityTable α) (o tg : α) (v : Ordering), WF t →
       TransitivityTable.order f t o tg v = .ok t' →
       ∀ x y, KnownLower t' x y → Relation.TransGen (Radd t o tg v) x y) ∧
    (∀ (ps : List (α × α)) (t t' : TransitivityTable α), WF t →
       (∀ p ∈ ps, Relation.TransGen (KnownLower t) p.1 p.2) →
       tsLoopAux (TransitivityTable.order f) ps t = .ok t' →
       ∀ x y, KnownLower t' x y → Relation.TransGen (KnownLower t) x y) := by
  induction f with
  | zero =>
    constructor
    · intro t t' o tg v _ h
      exact absurd h (by simp [TransitivityTable.order])
    · intro ps
      induction ps with
      | nil =>
        intro t t' _ _ h x y hxy
        obtain rfl : t = t' := by simpa [tsLoopAux] using h
        exact Relation.TransGen.single hxy
      | cons p ps ih =>
        obtain ⟨l, hd⟩ := p
        intro t t' hwf hps h
        rw [tsLoopAux] at h
        split at h
        · split at h
          case h_1 u hu => exact absurd hu (by simp [TransitivityTable.order])
          case h_2 => cases h
        · exact ih t t' hwf (fun p hp => hps p (List.mem_cons_of_mem _ hp)) h
  | succ g ihg =>
    have hord : ∀ (t t' : TransitivityTable α) (o tg : α) (v : Ordering), WF t →
        TransitivityTable.order (g + 1) t o tg v = .ok t' →
        ∀ x y, KnownLower t' x y → Relation.TransGen (Radd t o tg v) x y := by
      intro t t' o tg v hwf h x y hxy
      obtain ⟨g', cur, cur2, t3, hg, ho, htg, hc, g1, hc2, g2, h3, h4⟩ := order_ok_elim h
      obtain rfl : g' = g := by omega
      have hne : o ≠ tg := (hwf.ne_of_orderof_some hc).2.2
      have hwf2 : WF ((t.setPair (o, tg) v).setPair (tg, o) v.opposite) :=
        wf_write2 hwf v (by simp [hc])
      have hwf3 : WF t3 := loop_ok_wf hwf2 h3
      have b4 := ihg.2 _ _ _ hwf3 (tsPairs_transGen hwf3) h4
      have b3 := ihg.2 _ _ _ hwf2 (tsPairs_transGen hwf2) h3
      have step1 : Relation.TransGen (KnownLower t3) x y := b4 x y hxy
      have step2 : Relation.TransGen (KnownLower
          ((t.setPair (o, tg) v).setPair (tg, o) v.opposite)) x y := by
        rw [← Relation.transGen_idem]
        exact Relation.TransGen.mono (fun a b hab => b3 a b hab) step1
      have step3 := Relation.TransGen.mono
        (fun a b hab => knownLower_write2_subset hc hc2 hne a b hab) step2
      exact step3
    refine ⟨hord, fun ps => ?_⟩
    induction ps with
    | nil =>
      intro t t' _ _ h x y hxy
      obtain rfl : t = t' := by simpa [tsLoopAux] using h
      exact Relation.TransGen.single hxy
    | cons p ps ih =>
      obtain ⟨l, hd⟩ := p
      intro t t' hwf hps h
      rw [tsLoopAux] at h
      split at h
      · split at h
        case h_1 u hu =>
          have hwfu : WF u := order_ok_wf hwf hu
          have hradd : ∀ a b, Radd t l hd Ordering.Lower a b →
              Relation.TransGen (KnownLower t) a b := by
            rintro a b (hab | ⟨_, rfl, rfl⟩ | ⟨habs, _, _⟩)
            · exact Relation.TransGen.single hab
            · exact hps (a, b) (List.mem_cons_self _ _)
            · cases habs
          have hu_bound : ∀ a b, KnownLower u a b →
              Relation.TransGen (KnownLower t) a b := by
            intro a b hab
            have := hord t u l hd Ordering.Lower hwf hu a b hab
            rw [← Relation.transGen_idem]
            exact Relation.TransGen.mono hradd this
          have hps' : ∀ p ∈ ps, Relation.TransGen (KnownLower u) p.1 p.2 := by
            intro p hp
            exact Relation.TransGen.mono (order_ok_mono hwf hu)
              (hps p (List.mem_cons_of_mem _ hp))
          intro x y hxy
          have := ih u t' hwfu hps' h x y hxy
          rw [← Relation.transGen_idem]
          exact Relation.TransGen.mono hu_bound this
        case h_2 => cases h
      · exact ih t t' hwf (fun p hp => hps p (List.mem_cons_of_mem _ hp)) h

theorem order_ok_bound {f : Nat} {t t' : TransitivityTable α} {o tg : α} {v : Ordering}
    (hwf : WF t) (h : TransitivityTable.order f t o tg v = .ok t') :
    ∀ x y, KnownLower t' x y → Relation.TransGen (Radd t o tg v) x y :=
  (order_loop_bound f).1 t t' o tg v hwf h

/-! ### Coverage: every pair `transitivity_set` visits ends up Lower -/

theorem order_ok_edge {f : Nat} {t t' : TransitivityTable α} {o tg : α} {v : Ordering}
    (hwf : WF t) (h : TransitivityTable.order f t o tg v = .ok t') :
    (v = Ordering.Lower → KnownLower t' o tg) ∧
    (v = Ordering.Higher → KnownLower t' tg o) := by
  obtain ⟨g, cur, cur2, t3, hg, ho, htg, hc, g1, hc2, g2, h3, h4⟩ := order_ok_elim h
  have hne : o ≠ tg := (hwf.ne_of_orderof_some hc).2.2
  have hwf2 : WF ((t.setPair (o, tg) v).setPair (tg, o) v.opposite) :=
    wf_write2 hwf v (by simp [hc])
  have hwf3 : WF t3 := loop_ok_wf hwf2 h3
  have m3 := loop_ok_mono hwf2 h3
  have m4 := loop_ok_mono hwf3 h4
  constructor
  · rintro rfl
    refine m4 o tg (m3 o tg ?_)
    rw [KnownLower, orderof_write2 t o tg _ o tg (by simp [hc]) (by simp [hc2]) hne]
    rw [if_neg (by simp [Prod.ext_iff, hne]), if_pos rfl]
  · rintro rfl
    refine m4 tg o (m3 tg o ?_)
    rw [KnownLower, orderof_write2 t o tg _ tg o (by simp [hc]) (by simp [hc2]) hne]
    rw [if_pos rfl]
    rfl

theorem loop_coverage {f : Nat} {ps : List (α × α)} {t t' : TransitivityTable α}
    (hwf : WF t) (h : tsLoopAux (TransitivityTable.order f) ps t = .ok t') :
    ∀ p ∈ ps, KnownLower t' p.1 p.2 := by
  induction ps generalizing t with
  | nil => simp
  | cons p0 ps ih =>
    obtain ⟨l, hd⟩ := p0
    rw [tsLoopAux] at h
    intro p hp
    rcases List.mem_cons.mp hp with rfl | hmem
    · split at h
      · split at h
        case h_1 u hu =>
          exact loop_ok_mono (order_ok_wf hwf hu) h l hd
            ((order_ok_edge hwf hu).1 rfl)
        case h_2 => cases h
      · next hguard =>
        have hlow : KnownLower t l hd := by
          rw [Decidable.not_not] at hguard
          exact hguard
        exact loop_ok_mono hwf h l hd hlow
    · split at h
      · split at h
        case h_1 u hu => exact ih (order_ok_wf hwf hu) h p hmem
        case h_2 => cases h
      · exact ih hwf h p hmem

/-! ### Preservation of transitive closure by a successful `order` call -/

theorem ts_coverage {f : Nat} {t t' : TransitivityTable α} {pivot : α} (hwf : WF t)
    (h : tsLoopAux (TransitivityTable.order f) (tsPairs t pivot) t = .ok t') (l hd : α)
    (hl : l ∈ t.dataset) (hlp : l ≠ pivot) (hlow : KnownLower t l pivot)
    (hh : hd ∈ t.dataset) (hhp : hd ≠ pivot)
    (hhigh : t.orderof hd pivot = some Ordering.Higher) :
    KnownLower t' l hd :=
  loop_coverage hwf h (l, hd) (mem_tsPairs.mpr ⟨⟨hl, hlp, hlow⟩, hh, hhp, hhigh⟩)

/-- Explicit description of the transitive extension of a transitive relation
`S` by a single new edge `(a, b)`: it is transitive provided `S b a` fails. -/
theorem extRel_transitive {β : Type} {S : β → β → Prop} {a b : β}
    (hS : Transitive S) (hab : a ≠ b) (hba : ¬ S b a) :
    Transitive fun x y => S x y ∨ ((x = a ∨ S x a) ∧ (y = b ∨ S b y)) := by
  rintro x y z (hxy | ⟨hxa, hyb⟩) (hyz | ⟨hya, hzb⟩)
  · exact Or.inl (hS hxy hyz)
  · refine Or.inr ⟨?_, hzb⟩
    rcases hya with rfl | hya
    · exact Or.inr hxy
    · exact Or.inr (hS hxy hya)
  · refine Or.inr ⟨hxa, ?_⟩
    rcases hyb with rfl | hyb
    · exact Or.inr hyz
    · exact Or.inr (hS hyb hyz)
  · exfalso
    rcases hyb with rfl | hyb
    · rcases hya with hya | hya
      · exact hab hya.symm
      · exact hba hya
    · rcases hya with rfl | hya
      · exact hba hyb
      · exact hba (hS hyb hya)

/-- When both directions of the asserted pair were `Unknown`, the double
write realizes exactly the known-Lower relation extended by the new edge. -/
theorem knownLower_write2_unknown_iff {t : TransitivityTable α} {o tg : α}
    (hne : o ≠ tg) (v : Ordering)
    (hc : t.orderof o tg = some Ordering.Unknown)
    (hc2 : t.orderof tg o = some Ordering.Unknown) (x y : α) :
    KnownLower ((t.setPair (o, tg) v).setPair (tg, o) v.opposite) x y ↔
      Radd t o tg v x y := by
  rw [KnownLower, orderof_write2 t o tg v x y (by simp [hc]) (by simp [hc2]) hne, Radd]
  by_cases e1 : (x, y) = (tg, o)
  · obtain ⟨rfl, rfl⟩ := Prod.ext_iff.mp e1
    rw [if_pos rfl]
    constructor
    · intro hv
      obtain hv : v.opposite = Ordering.Lower := by simpa using hv
      have : v = Ordering.Higher := by cases v <;> simp_all [Ordering.opposite]
      exact Or.inr (Or.inr ⟨this, rfl, rfl⟩)
    · rintro (hS | ⟨rfl, rfl, h2⟩ | ⟨rfl, _, _⟩)
      · rw [KnownLower, hc2] at hS
        cases Option.some_inj.mp hS
      · exact absurd h2.symm hne
      · rfl
  · by_cases e2 : (x, y) = (o, tg)
    · obtain ⟨rfl, rfl⟩ := Prod.ext_iff.mp e2
      rw [if_neg e1, if_pos rfl]
      constructor
      · intro hv
        obtain rfl : v = Ordering.Lower := by simpa using hv
        exact Or.inr (Or.inl ⟨rfl, rfl, rfl⟩)
      · rintro (hS | ⟨rfl, _, _⟩ | ⟨rfl, rfl, h2⟩)
        · rw [KnownLower, hc] at hS
          cases Option.some_inj.mp hS
        · rfl
        · exact absurd h2 hne
    · rw [if_neg e1, if_neg e2]
      constructor
      · exact fun hS => Or.inl hS
      · rintro (hS | ⟨rfl, rfl, rfl⟩ | ⟨rfl, rfl, rfl⟩)
        · exact hS
        · exact absurd rfl e2
        · exact absurd rfl e1

/-- If the asserted edge adds nothing to the known-Lower relation, a
successful `order` call leaves the relation's closure intact. -/
theorem order_ok_closed_of_radd_le {f : Nat} {t t' : TransitivityTable α} {o tg : α}
    {v : Ordering} (hwf : WF t) (hcl : Closed t)
    (h : TransitivityTable.order f t o tg v = .ok t')
    (hradd : ∀ x y, Radd t o tg v x y → KnownLower t x y) : Closed t' := by
  have htrans : Transitive (KnownLower t) := by
    intro a b c hab hbc
    exact hcl a b c hab hbc
  obtain ⟨g, cur, cur2, t3, hg, ho, htg, hc, g1, hc2, g2, h3, h4⟩ := order_ok_elim h
  subst hg
  have hwf2 : WF ((t.setPair (o, tg) v).setPair (tg, o) v.opposite) :=
    wf_write2 hwf v (by simp [hc])
  have hwf3 : WF t3 := loop_ok_wf hwf2 h3
  have hmono2 := knownLower_write2 hwf hc hc2 g1 g2
  have m3 := loop_ok_mono hwf2 h3
  have m4 := loop_ok_mono hwf3 h4
  have hup : ∀ x y, KnownLower t' x y → KnownLower t x y := fun x y hxy =>
    transGen_le_of_transitive hradd htrans x y (order_ok_bound hwf h x y hxy)
  have hdown : ∀ x y, KnownLower t x y → KnownLower t' x y :=
    fun x y hxy => m4 x y (m3 x y (hmono2 x y hxy))
  intro x y z hxy hyz
  exact hdown x z (hcl x y z (hup x y hxy) (hup y z hyz))

/-- A successful `order` call keeps the known-Lower relation transitively
closed. -/
theorem order_ok_closed {f : Nat} {t t' : TransitivityTable α} {o tg : α}
    {v : Ordering} (hinv : Inv t)
    (h : TransitivityTable.order f t o tg v = .ok t') : Closed t' := by
  obtain ⟨hwf, hcl⟩ := hinv
  have htrans : Transitive (KnownLower t) := by
    intro a b c hab hbc
    exact hcl a b c hab hbc
  obtain ⟨g, cur, cur2, t3, hg, ho, htg, hc, g1, hc2, g2, h3, h4⟩ := order_ok_elim h
  subst hg
  have hne : o ≠ tg := (hwf.ne_of_orderof_some hc).2.2
  have hcur2 : cur2 = cur.opposite := by
    have := hwf.antisym o tg cur hc
    rw [hc2] at this
    exact Option.some_inj.mp this
  by_cases hcU : cur = Ordering.Unknown
  · subst hcU
    have hc2' : t.orderof tg o = some Ordering.Unknown := by
      rw [hc2, hcur2]
      rfl
    cases v with
    | Unknown =>
      -- asserting Unknown on an unresolved pair: no edge is added
      refine order_ok_closed_of_radd_le hwf hcl h ?_
      rintro x y (hS | ⟨hLH, -, -⟩ | ⟨hLH, -, -⟩)
      · exact hS
      · cases hLH
      · cases hLH
    | Lower =>
      -- new edge (o, tg); propagation runs first at o, then at tg
      have hwf2 : WF ((t.setPair (o, tg) Ordering.Lower).setPair
          (tg, o) Ordering.Lower.opposite) := wf_write2 hwf _ (by simp [hc])
      have hwf3 : WF t3 := loop_ok_wf hwf2 h3
      have hmono2 := knownLower_write2 hwf hc hc2 g1 g2
      have m3 := loop_ok_mono hwf2 h3
      have m4 := loop_ok_mono hwf3 h4
      have hbound := order_ok_bound hwf h
      have hds2 : ((t.setPair (o, tg) Ordering.Lower).setPair
          (tg, o) Ordering.Lower.opposite).dataset = t.dataset := write2_dataset t o tg _
      have hds3 : t3.dataset = t.dataset := by rw [loop_ok_dataset hwf2 h3, hds2]
      have hba : ¬ KnownLower t tg o := by
        intro hS
        rw [KnownLower, hc2'] at hS
        cases Option.some_inj.mp hS
      have hSx : Transitive fun x y => KnownLower t x y ∨
          ((x = o ∨ KnownLower t x o) ∧ (y = tg ∨ KnownLower t tg y)) :=
        extRel_transitive htrans hne hba
      have hupper : ∀ x y, KnownLower t' x y → KnownLower t x y ∨
          ((x = o ∨ KnownLower t x o) ∧ (y = tg ∨ KnownLower t tg y)) := by
        intro x y hxy
        refine transGen_le_of_transitive ?_ hSx x y (hbound x y hxy)
        rintro a b (hS | ⟨-, rfl, rfl⟩ | ⟨hLH, -, -⟩)
        · exact Or.inl hS
        · exact Or.inr ⟨Or.inl rfl, Or.inl rfl⟩
        · cases hLH
      have hedge2 : KnownLower ((t.setPair (o, tg) Ordering.Lower).setPair
          (tg, o) Ordering.Lower.opposite) o tg := by
        rw [KnownLower, orderof_write2 t o tg _ o tg (by simp [hc]) (by simp [hc2']) hne,
          if_neg (by simp [Prod.ext_iff, hne]), if_pos rfl]
      have cov3 : ∀ x, KnownLower t x o → KnownLower t3 x tg := by
        intro x hxo
        obtain ⟨hxds, hods, hxno⟩ := hwf.ne_of_orderof_some hxo
        refine ts_coverage hwf2 h3 x tg ?_ hxno ?_ ?_ hne.symm ?_
        · rw [hds2]
          exact hxds
        · exact hmono2 x o hxo
        · rw [hds2]
          exact htg
        · rw [orderof_write2 t o tg _ tg o (by simp [hc]) (by simp [hc2']) hne,
            if_pos rfl]
          rfl
      have hlower : ∀ x y, (KnownLower t x y ∨
          ((x = o ∨ KnownLower t x o) ∧ (y = tg ∨ KnownLower t tg y))) →
          KnownLower t' x y := by
        rintro x y (hS | ⟨hxa, hyb⟩)
        · exact m4 x y (m3 x y (hmono2 x y hS))
        · have hlow3 : KnownLower t3 x tg := by
            rcases hxa with rfl | hxa
            · exact m3 x tg hedge2
            · exact cov3 x hxa
          rcases hyb with rfl | hyb
          · exact m4 x y hlow3
          · obtain ⟨hxds, _, hxntg⟩ := hwf3.ne_of_orderof_some hlow3
            have hy3 : KnownLower t3 tg y := m3 tg y (hmono2 tg y hyb)
            obtain ⟨_, hyds, htgny⟩ := hwf3.ne_of_orderof_some hy3
            exact ts_coverage hwf3 h4 x y hxds hxntg hlow3 hyds
              (Ne.symm htgny) (hwf3.antisym tg y Ordering.Lower hy3)
      intro x y z hxy hyz
      exact hlower x z (hSx (hupper x y hxy) (hupper y z hyz))
    | Higher =>
      -- new edge (tg, o); propagation runs first at o, then at tg
      have hwf2 : WF ((t.setPair (o, tg) Ordering.Higher).setPair
          (tg, o) Ordering.Higher.opposite) := wf_write2 hwf _ (by simp [hc])
      have hwf3 : WF t3 := loop_ok_wf hwf2 h3
      have hmono2 := knownLower_write2 hwf hc hc2 g1 g2
      have m3 := loop_ok_mono hwf2 h3
      have m4 := loop_ok_mono hwf3 h4
      have hbound := order_ok_bound hwf h
      have hds2 : ((t.setPair (o, tg) Ordering.Higher).setPair
          (tg, o) Ordering.Higher.opposite).dataset = t.dataset := write2_dataset t o tg _
      have hds3 : t3.dataset = t.dataset := by rw [loop_ok_dataset hwf2 h3, hds2]
      have hba : ¬ KnownLower t o tg := by
        intro hS
        rw [KnownLower, hc] at hS
        cases Option.some_inj.mp hS
      have hSx : Transitive fun x y => KnownLower t x y ∨
          ((x = tg ∨ KnownLower t x tg) ∧ (y = o ∨ KnownLower t o y)) :=
        extRel_transitive htrans hne.symm hba
      have hupper : ∀ x y, KnownLower t' x y → KnownLower t x y ∨
          ((x = tg ∨ KnownLower t x tg) ∧ (y = o ∨ KnownLower t o y)) := by
        intro x y hxy
        refine transGen_le_of_transitive ?_ hSx x y (hbound x y hxy)
        rintro a b (hS | ⟨hHL, -, -⟩ | ⟨-, rfl, rfl⟩)
        · exact Or.inl hS
        · cases hHL
        · exact Or.inr ⟨Or.inl rfl, Or.inl rfl⟩
      have hedge2 : KnownLower ((t.setPair (o, tg) Ordering.Higher).setPair
          (tg, o) Ordering.Higher.opposite) tg o := by
        rw [KnownLower, orderof_write2 t o tg _ tg o (by simp [hc]) (by simp [hc2']) hne,
          if_pos rfl]
        rfl
      have cov3 : ∀ y, KnownLower t o y → KnownLower t3 tg y := by
        intro y hoy
        obtain ⟨hods, hyds, hony⟩ := hwf.ne_of_orderof_some hoy
        refine ts_coverage hwf2 h3 tg y ?_ hne.symm hedge2 ?_
          (Ne.symm hony) ?_
        · rw [hds2]
          exact htg
        · rw [hds2]
          exact hyds
        · exact hwf2.antisym o y Ordering.Lower (hmono2 o y hoy)
      have hlower : ∀ x y, (KnownLower t x y ∨
          ((x = tg ∨ KnownLower t x tg) ∧ (y = o ∨ KnownLower t o y))) →
          KnownLower t' x y := by
        rintro x y (hS | ⟨hxa, hyb⟩)
        · exact m4 x y (m3 x y (hmono2 x y hS))
        · have hhigh3 : ∀ y', (y' = o ∨ KnownLower t o y') →
              t3.orderof y' tg = some Ordering.Higher := by
            rintro y' (rfl | hoy)
            · exact hwf3.antisym tg y' Ordering.Lower (m3 tg y' hedge2)
            · exact hwf3.antisym tg y' Ordering.Lower (cov3 y' hoy)
          rcases hxa with rfl | hxa
          · rcases hyb with rfl | hyb
            · exact m4 x y (m3 x y hedge2)
            · exact m4 x y (cov3 y hyb)
          · have hx3 : KnownLower t3 x tg := m3 x tg (hmono2 x tg hxa)
            obtain ⟨hxds, _, hxntg⟩ := hwf3.ne_of_orderof_some hx3
            have hyds : y ∈ t.dataset := by
              rcases hyb with rfl | hyb
              · exact ho
              · exact (hwf.ne_of_orderof_some hyb).2.1
            have hyntg : y ≠ tg := by
              rcases hyb with rfl | hyb
              · exact hne
              · rintro rfl
                exact hba hyb
            refine ts_coverage hwf3 h4 x y hxds hxntg hx3 ?_ hyntg
              (hhigh3 y hyb)
            rw [hds3]
            exact hyds
      intro x y z hxy hyz
      exact hlower x z (hSx (hupper x y hxy) (hupper y z hyz))
  · -- the pair was already resolved: the guards force a re-assertion of `cur`
    have hcv : cur = v := by
      rcases not_and_or.mp g1 with h' | h'
      · exact absurd (Decidable.not_not.mp h') hcU
      · exact Decidable.not_not.mp h'
    subst hcv
    refine order_ok_closed_of_radd_le hwf hcl h ?_
    rintro x y (hS | ⟨hv, rfl, rfl⟩ | ⟨hv, rfl, rfl⟩)
    · exact hS
    · rw [KnownLower, ← hv]
      exact hc
    · rw [KnownLower]
      rw [hcur2, hv] at hc2
      exact hc2

/-! ### Reachable store states and the claimed invariants -/

/-- Store states reachable from the freshly built table over a duplicate-free
dataset through successful `order` calls (any fuel, any value). -/
inductive Reachable (ds : List α) : TransitivityTable α → Prop where
  | init : ds.Nodup → Reachable ds (TransitivityTable.init ds)
  | step {t t' : TransitivityTable α} {f : Nat} {o tg : α} {v : Ordering} :
      Reachable ds t → TransitivityTable.order f t o tg v = .ok t' → Reachable ds t'

theorem Reachable.inv {ds : List α} {t : TransitivityTable α}
    (h : Reachable ds t) : Inv t := by
  induction h with
  | init hnd => exact inv_init hnd
  | step _ hok ih => exact ⟨order_ok_wf ih.1 hok, order_ok_closed ih hok⟩

theorem Reachable.dataset_eq {ds : List α} {t : TransitivityTable α}
    (h : Reachable ds t) : t.dataset = ds := by
  induction h with
  | init _ => rfl
  | step hr hok ih => rw [order_ok_dataset hr.inv.1 hok, ih]

/-! ### Claims C1, C2, C10 -/

/-- C1: after every successful call to the store's assert operation
(`TransitivityTable.order`), there is no triple of distinct elements
`x, y, z` of the set with `islower x y` and `islower y z` but not
`islower x z`: the known-Lower relation on resolved pairs is transitively
closed in every reachable store state. -/
theorem claimC1 {ds : List α} {t : TransitivityTable α} (hreach : Reachable ds t)
    (x y z : α) (hx : x ∈ ds) (hy : y ∈ ds) (hz : z ∈ ds)
    (hxy : x ≠ y) (hyz : y ≠ z) (hxz : x ≠ z) :
    ¬(t.islower x y = true ∧ t.islower y z = true ∧ t.islower x z = false) := by
  rintro ⟨h1, h2, h3⟩
  rw [islower_iff] at h1 h2
  have := hreach.inv.2 x y z h1 h2
  rw [← islower_iff] at this
  rw [this] at h3
  cases h3

/-- Witness for C1: the table over `[0,1,2]` reached by asserting `0 < 1`
then `1 < 2`; transitivity has resolved `0 < 2`. -/
theorem claimC1_witness :
    ¬((⟨[((0, 1), Ordering.Lower), ((0, 2), Ordering.Lower), ((1, 0), Ordering.Higher),
        ((1, 2), Ordering.Lower), ((2, 0), Ordering.Higher), ((2, 1), Ordering.Higher)],
       [0, 1, 2]⟩ : TransitivityTable Nat).islower 0 1 = true ∧
      (⟨[((0, 1), Ordering.Lower), ((0, 2), Ordering.Lower), ((1, 0), Ordering.Higher),
        ((1, 2), Ordering.Lower), ((2, 0), Ordering.Higher), ((2, 1), Ordering.Higher)],
       [0, 1, 2]⟩ : TransitivityTable Nat).islower 1 2 = true ∧
      (⟨[((0, 1), Ordering.Lower), ((0, 2), Ordering.Lower), ((1, 0), Ordering.Higher),
        ((1, 2), Ordering.Lower), ((2, 0), Ordering.Higher), ((2, 1), Ordering.Higher)],
       [0, 1, 2]⟩ : TransitivityTable Nat).islower 0 2 = false) := by
  have h1 : TransitivityTable.order 10 (TransitivityTable.init [0, 1, 2]) 0 1
      Ordering.Lower = .ok
        ⟨[((0, 1), Ordering.Lower), ((0, 2), Ordering.Unknown), ((1, 0), Ordering.Higher),
          ((1, 2), Ordering.Unknown), ((2, 0), Ordering.Unknown), ((2, 1), Ordering.Unknown)],
         [0, 1, 2]⟩ := by rfl
  have h2 : TransitivityTable.order 10
      (⟨[((0, 1), Ordering.Lower), ((0, 2), Ordering.Unknown), ((1, 0), Ordering.Higher),
         ((1, 2), Ordering.Unknown), ((2, 0), Ordering.Unknown), ((2, 1), Ordering.Unknown)],
        [0, 1, 2]⟩ : TransitivityTable Nat) 1 2 Ordering.Lower = .ok
        ⟨[((0, 1), Ordering.Lower), ((0, 2), Ordering.Lower), ((1, 0), Ordering.Higher),
          ((1, 2), Ordering.Lower), ((2, 0), Ordering.Higher), ((2, 1), Ordering.Higher)],
         [0, 1, 2]⟩ := by rfl
  exact claimC1 (Reachable.step (Reachable.step (Reachable.init (by decide)) h1) h2)
    0 1 2 (by decide) (by decide) (by decide) (by decide) (by decide) (by decide)

/-- C2: for every pair of distinct elements `x, y` of the constructed set and
every store state reached from the freshly built table by successful assert
calls, `orderof x y` equals the opposite of `orderof y x`. -/
theorem claimC2 {ds : List α} {t : TransitivityTable α} (hreach : Reachable ds t)
    (x y : α) (hx : x ∈ ds) (hy : y ∈ ds) (hxy : x ≠ y) :
    t.orderof x y = (t.orderof y x).map Ordering.opposite := by
  have hwf := hreach.inv.1
  have hys : (t.orderof y x).isSome := by
    rw [hwf.dom y x]
    rw [hreach.dataset_eq]
    exact ⟨hy, hx, hxy.symm⟩
  obtain ⟨v, hv⟩ := Option.isSome_iff_exists.mp hys
  rw [hv, Option.map_some']
  exact hwf.antisym y x v hv

/-- Witness for C2: the two-assert table over `[0,1,2]` at the pair `(2, 0)`. -/
theorem claimC2_witness :
    (⟨[((0, 1), Ordering.Lower), ((0, 2), Ordering.Lower), ((1, 0), Ordering.Higher),
       ((1, 2), Ordering.Lower), ((2, 0), Ordering.Higher), ((2, 1), Ordering.Higher)],
      [0, 1, 2]⟩ : TransitivityTable Nat).orderof 2 0 =
      ((⟨[((0, 1), Ordering.Lower), ((0, 2), Ordering.Lower), ((1, 0), Ordering.Higher),
         ((1, 2), Ordering.Lower), ((2, 0), Ordering.Higher), ((2, 1), Ordering.Higher)],
        [0, 1, 2]⟩ : TransitivityTable Nat).orderof 0 2).map Ordering.opposite := by
  have h1 : TransitivityTable.order 10 (TransitivityTable.init [0, 1, 2]) 0 1
      Ordering.Lower = .ok
        ⟨[((0, 1), Ordering.Lower), ((0, 2), Ordering.Unknown), ((1, 0), Ordering.Higher),
          ((1, 2), Ordering.Unknown), ((2, 0), Ordering.Unknown), ((2, 1), Ordering.Unknown)],
         [0, 1, 2]⟩ := by rfl
  have h2 : TransitivityTable.order 10
      (⟨[((0, 1), Ordering.Lower), ((0, 2), Ordering.Unknown), ((1, 0), Ordering.Higher),
         ((1, 2), Ordering.Unknown), ((2, 0), Ordering.Unknown), ((2, 1), Ordering.Unknown)],
        [0, 1, 2]⟩ : TransitivityTable Nat) 1 2 Ordering.Lower = .ok
        ⟨[((0, 1), Ordering.Lower), ((0, 2), Ordering.Lower), ((1, 0), Ordering.Higher),
          ((1, 2), Ordering.Lower), ((2, 0), Ordering.Higher), ((2, 1), Ordering.Higher)],
         [0, 1, 2]⟩ := by rfl
  exact claimC2 (Reachable.step (Reachable.step (Reachable.init (by decide)) h1) h2)
    2 0 (by decide) (by decide) (by decide)

/-- C10: diagonal queries fail — for every element `x` of the constructed set
and every reachable store state, `orderof x x` is a `KeyError` (`none`): the
table only has entries for ordered pairs of distinct elements. -/
theorem claimC10 {ds : List α} {t : TransitivityTable α} (hreach : Reachable ds t)
    (x : α) (hx : x ∈ ds) : t.orderof x x = none :=
  hreach.inv.1.orderof_diag_eq_none x

/-- Witness for C10: the fresh table over `[0, 1]` at `x = 0`. -/
theorem claimC10_witness : (TransitivityTable.init [0, 1] :
    TransitivityTable Nat).orderof 0 0 = none :=
  claimC10 (Reachable.init (by decide)) 0 (by decide)

/-! ### Guard behaviour of `order`: conflicts, bad elements, the diagonal -/

/-- A conflicting value is rejected by the first guard, before anything is
written: the error carries the untouched store. -/
theorem order_conflict_first_guard {t : TransitivityTable α} {a b : α}
    {w v : Ordering} {f : Nat} (hf : 0 < f)
    (ha : a ∈ t.dataset) (hb : b ∈ t.dataset) (hw : t.orderof a b = some w)
    (hg : w ≠ Ordering.Unknown ∧ w ≠ v) :
    TransitivityTable.order f t a b v = .error (.alreadyAssigned, t) := by
  obtain ⟨g, rfl⟩ : ∃ g, f = g + 1 := ⟨f - 1, by omega⟩
  simp only [TransitivityTable.order]
  rw [if_pos ha, if_pos hb, hw]
  simp only
  rw [if_pos hg]

theorem order_origin_missing {t : TransitivityTable α} {o tg : α} {v : Ordering}
    {f : Nat} (hf : 0 < f) (ho : o ∉ t.dataset) :
    TransitivityTable.order f t o tg v = .error (.originNotInDataset, t) := by
  obtain ⟨g, rfl⟩ : ∃ g, f = g + 1 := ⟨f - 1, by omega⟩
  simp only [TransitivityTable.order]
  rw [if_neg ho]

theorem order_target_missing {t : TransitivityTable α} {o tg : α} {v : Ordering}
    {f : Nat} (hf : 0 < f) (ho : o ∈ t.dataset) (htg : tg ∉ t.dataset) :
    TransitivityTable.order f t o tg v = .error (.targetNotInDataset, t) := by
  obtain ⟨g, rfl⟩ : ∃ g, f = g + 1 := ⟨f - 1, by omega⟩
  simp only [TransitivityTable.order]
  rw [if_pos ho, if_neg htg]

theorem order_diag_keyError {t : TransitivityTable α} {o : α} {v : Ordering}
    {f : Nat} (hf : 0 < f) (hwf : WF t) (ho : o ∈ t.dataset) :
    TransitivityTable.order f t o o v = .error (.keyError, t) := by
  obtain ⟨g, rfl⟩ : ∃ g, f = g + 1 := ⟨f - 1, by omega⟩
  simp only [TransitivityTable.order]
  rw [if_pos ho, if_pos ho, hwf.orderof_diag_eq_none]

/-! ### `transitivity_set` is a no-op on a closed store -/

theorem tsLoop_noop {f : Nat} {t : TransitivityTable α} {ps : List (α × α)}
    (hps : ∀ p ∈ ps, KnownLower t p.1 p.2) :
    tsLoopAux (TransitivityTable.order f) ps t = .ok t := by
  induction ps with
  | nil => rfl
  | cons p ps ih =>
    obtain ⟨l, hd⟩ := p
    rw [tsLoopAux, if_neg]
    · exact ih fun q hq => hps q (List.mem_cons_of_mem _ hq)
    · rw [Decidable.not_not]
      exact hps (l, hd) (List.mem_cons_self _ _)

theorem ts_closed_noop {f : Nat} {t : TransitivityTable α} {pivot : α}
    (hwf : WF t) (hcl : Closed t) :
    tsLoopAux (TransitivityTable.order f) (tsPairs t pivot) t = .ok t := by
  refine tsLoop_noop fun p hp => ?_
  obtain ⟨⟨_, _, hlow⟩, ⟨_, _, hhigh⟩⟩ := mem_tsPairs.mp hp
  exact hcl p.1 pivot p.2 hlow (hwf.antisym p.2 pivot Ordering.Higher hhigh)

/-- Overwriting both directions of an `Unknown` pair with `Unknown` changes
nothing. -/
theorem write2_unknown_self {t : TransitivityTable α} (hwf : WF t) {o tg : α}
    (hc : t.orderof o tg = some Ordering.Unknown)
    (hc2 : t.orderof tg o = some Ordering.Unknown) :
    (t.setPair (o, tg) Ordering.Unknown).setPair
      (tg, o) Ordering.Unknown.opposite = t := by
  have h1 : t.setPair (o, tg) Ordering.Unknown = t := by
    obtain ⟨d, ds⟩ := t
    rw [TransitivityTable.setPair]
    simp only [TransitivityTable.mk.injEq, and_true]
    exact dictSet_self hwf.keysNodup hc
  rw [h1]
  obtain ⟨d, ds⟩ := t
  rw [TransitivityTable.setPair]
  simp only [TransitivityTable.mk.injEq, and_true]
  exact dictSet_self hwf.keysNodup hc2

/-- Asserting `Unknown` on an unresolved pair of distinct set elements
succeeds and leaves the store exactly as it was. -/
theorem order_unknown_noop {ds : List α} {t : TransitivityTable α}
    (hreach : Reachable ds t) {o tg : α} (ho : o ∈ ds) (htg : tg ∈ ds)
    (hne : o ≠ tg) {f : Nat} (hf : 0 < f)
    (hc : t.orderof o tg = some Ordering.Unknown) :
    TransitivityTable.order f t o tg Ordering.Unknown = .ok t := by
  obtain ⟨hwf, hcl⟩ := hreach.inv
  have hc2 : t.orderof tg o = some Ordering.Unknown :=
    hwf.antisym o tg Ordering.Unknown hc
  obtain ⟨g, rfl⟩ : ∃ g, f = g + 1 := ⟨f - 1, by omega⟩
  have hds := hreach.dataset_eq
  simp only [TransitivityTable.order]
  rw [if_pos (by rw [hds]; exact ho), if_pos (by rw [hds]; exact htg), hc]
  simp only
  rw [if_neg (by simp), hc2]
  simp only
  rw [if_neg (by simp)]
  rw [transitivity_setAux, write2_unknown_self hwf hc hc2, ts_closed_noop hwf hcl]
  simp only
  rw [transitivity_setAux, ts_closed_noop hwf hcl]

/-! ### Claims C3, C7, C8 -/

/-- C3: conflict rejection is atomic — if the stored value for a pair `(a, b)`
is definite (`Lower` or `Higher`), asserting the other definite value raises
the conflict error (`ValueError('Ordering already assigned')`, the spec's
`ConflictingOrder`), and the store is exactly the same after the failed call:
the error is raised by the guard before anything is written or propagated. -/
theorem claimC3 {t : TransitivityTable α} {a b : α} {w v : Ordering} {f : Nat}
    (hf : 0 < f) (ha : a ∈ t.dataset) (hb : b ∈ t.dataset)
    (hw : t.orderof a b = some w) (hwdef : w ≠ Ordering.Unknown)
    (hvdef : v ≠ Ordering.Unknown) (hvw : v ≠ w) :
    TransitivityTable.order f t a b v = .error (.alreadyAssigned, t) :=
  order_conflict_first_guard hf ha hb hw ⟨hwdef, Ne.symm hvw⟩

/-- Witness for C3: on the table over `[0,1,2]` holding `0 < 1`, asserting
`(0,1) = Higher` fails with the conflict error and the untouched store. -/
theorem claimC3_witness :
    TransitivityTable.order 5
      (⟨[((0, 1), Ordering.Lower), ((0, 2), Ordering.Unknown), ((1, 0), Ordering.Higher),
         ((1, 2), Ordering.Unknown), ((2, 0), Ordering.Unknown), ((2, 1), Ordering.Unknown)],
        [0, 1, 2]⟩ : TransitivityTable Nat) 0 1 Ordering.Higher =
      .error (.alreadyAssigned,
        ⟨[((0, 1), Ordering.Lower), ((0, 2), Ordering.Unknown), ((1, 0), Ordering.Higher),
          ((1, 2), Ordering.Unknown), ((2, 0), Ordering.Unknown), ((2, 1), Ordering.Unknown)],
         [0, 1, 2]⟩) :=
  claimC3 (w := Ordering.Lower) (by decide) (by decide) (by decide) (by decide)
    (by decide) (by decide) (by decide)

/-- C7 counterexample: `Unknown` is accepted by the assert operation — on the
fresh table over `[0, 1]`, `order 0 1 Unknown` succeeds (returning the store
unchanged) instead of failing as the claim states. -/
theorem claimC7_counterexample :
    TransitivityTable.order 5 (TransitivityTable.init [0, 1]) 0 1 Ordering.Unknown =
      .ok (TransitivityTable.init ([0, 1] : List Nat)) := by rfl

/-- C7 (amended): asserting `Unknown` for a pair of distinct set elements is
rejected only when the stored value of the pair is definite — then the call
fails with the conflict error (`'Ordering already assigned'`) and the store is
unchanged; when the pair is still `Unknown`, the call succeeds and leaves the
store exactly as it was. -/
theorem claimC7 {ds : List α} {t : TransitivityTable α} (hreach : Reachable ds t)
    {o tg : α} (ho : o ∈ ds) (htg : tg ∈ ds) (hne : o ≠ tg) {f : Nat} (hf : 0 < f) :
    (t.orderof o tg = some Ordering.Unknown →
      TransitivityTable.order f t o tg Ordering.Unknown = .ok t) ∧
    (∀ w, t.orderof o tg = some w → w ≠ Ordering.Unknown →
      TransitivityTable.order f t o tg Ordering.Unknown =
        .error (.alreadyAssigned, t)) := by
  constructor
  · exact fun hc => order_unknown_noop hreach ho htg hne hf hc
  · intro w hw hwdef
    have hds := hreach.dataset_eq
    exact order_conflict_first_guard hf (by rw [hds]; exact ho) (by rw [hds]; exact htg)
      hw ⟨hwdef, hwdef⟩

/-- Witness for C7 (amended): over `[0, 1]`, asserting `Unknown` on the fresh
table succeeds unchanged, and asserting `Unknown` once `0 < 1` is recorded
fails with the conflict error, store unchanged. -/
theorem claimC7_witness :
    TransitivityTable.order 7 (TransitivityTable.init [0, 1]) 0 1 Ordering.Unknown =
      .ok (TransitivityTable.init ([0, 1] : List Nat)) ∧
    TransitivityTable.order 7
      (⟨[((0, 1), Ordering.Lower), ((1, 0), Ordering.Higher)], [0, 1]⟩ :
        TransitivityTable Nat) 0 1 Ordering.Unknown =
      .error (.alreadyAssigned,
        ⟨[((0, 1), Ordering.Lower), ((1, 0), Ordering.Higher)], [0, 1]⟩) := by
  have h1 : TransitivityTable.order 7 (TransitivityTable.init [0, 1]) 0 1
      Ordering.Lower = .ok
        (⟨[((0, 1), Ordering.Lower), ((1, 0), Ordering.Higher)], [0, 1]⟩ :
          TransitivityTable Nat) := by rfl
  constructor
  · exact (claimC7 (Reachable.init (by decide)) (by decide) (by decide) (by decide)
      (by decide)).1 (by rfl)
  · exact (claimC7 (Reachable.step (Reachable.init (by decide)) h1) (by decide)
      (by decide) (by decide) (by decide)).2 Ordering.Lower (by rfl) (by decide)

/-- C8 counterexample: a call with `origin == target` (both in the set) does
fail, but with a `KeyError` — not with either of the `UnknownElement`
membership errors the claim names. -/
theorem claimC8_counterexample :
    TransitivityTable.order 5 (TransitivityTable.init [0, 1]) 0 0 Ordering.Lower =
      .error (.keyError, TransitivityTable.init ([0, 1] : List Nat)) ∧
    Err.keyError.isUnknownElement = false := by
  constructor
  · rfl
  · rfl

/-- C8 (amended): a call with `origin` outside the set fails with the
`origin`-membership `ValueError`; with `origin` in the set but `target`
outside, with the `target`-membership `ValueError`; and with
`origin == target` in the set, with a `KeyError` from the missing diagonal
key.  In every case the store is unchanged (the error carries the untouched
store). -/
theorem claimC8 {t : TransitivityTable α} {o tg : α} {v : Ordering} {f : Nat}
    (hf : 0 < f) (hwf : WF t) :
    (o ∉ t.dataset →
      TransitivityTable.order f t o tg v = .error (.originNotInDataset, t)) ∧
    (o ∈ t.dataset → tg ∉ t.dataset →
      TransitivityTable.order f t o tg v = .error (.targetNotInDataset, t)) ∧
    (o ∈ t.dataset → o = tg →
      TransitivityTable.order f t o tg v = .error (.keyError, t)) := by
  refine ⟨fun ho => order_origin_missing hf ho,
    fun ho htg => order_target_missing hf ho htg, fun ho heq => ?_⟩
  subst heq
  exact order_diag_keyError hf hwf ho

/-- Witness for C8 (amended): the three failure modes on the fresh table over
`[0, 1]`. -/
theorem claimC8_witness :
    TransitivityTable.order 5 (TransitivityTable.init [0, 1]) 7 0 Ordering.Lower =
      .error (.originNotInDataset, TransitivityTable.init ([0, 1] : List Nat)) ∧
    TransitivityTable.order 5 (TransitivityTable.init [0, 1]) 0 7 Ordering.Lower =
      .error (.targetNotInDataset, TransitivityTable.init ([0, 1] : List Nat)) ∧
    TransitivityTable.order 5 (TransitivityTable.init [0, 1]) 1 1 Ordering.Lower =
      .error (.keyError, TransitivityTable.init ([0, 1] : List Nat)) := by
  refine ⟨(claimC8 (by decide) (wf_init (by decide))).1 (by decide),
    (claimC8 (by decide) (wf_init (by decide))).2.1 (by decide) (by decide),
    (claimC8 (by decide) (wf_init (by decide))).2.2 (by decide) rfl⟩

/-! ### The merge scan: suspension and element preservation -/

theorem mergeAux_question_unknown {t : TransitivityTable α} {x : α} {xs : List α}
    {recA : List α → List α → Option (MergeStep α)}
    (hrec : ∀ b acc q, recA b acc = some (.question q) →
      t.orderof q.1 q.2 = some Ordering.Unknown) :
    ∀ b acc q, mergeAux t x xs recA b acc = some (.question q) →
      t.orderof q.1 q.2 = some Ordering.Unknown := by
  intro b
  induction b with
  | nil =>
    intro acc q h
    cases h
  | cons y ys ih =>
    intro acc q h
    rw [mergeAux] at h
    split at h
    · cases h
    · obtain rfl : (x, y) = q := by simpa using h
      assumption
    · exact hrec _ _ _ h
    · exact ih _ _ h

theorem mergeLoop_question_unknown {t : TransitivityTable α} {a : List α} :
    ∀ {b acc : List α} {q : α × α}, mergeLoop t a b acc = some (.question q) →
      t.orderof q.1 q.2 = some Ordering.Unknown := by
  induction a with
  | nil =>
    intro b acc q h
    cases h
  | cons x xs ih =>
    intro b acc q h
    rw [mergeLoop] at h
    exact mergeAux_question_unknown (fun b' acc' q' hq => ih hq) b acc q h

theorem mergeAux_complete_perm {t : TransitivityTable α} {x : α} {xs : List α}
    {recA : List α → List α → Option (MergeStep α)}
    (hrec : ∀ b acc m, recA b acc = some (.complete m) → m.Perm (acc ++ xs ++ b)) :
    ∀ b acc m, mergeAux t x xs recA b acc = some (.complete m) →
      m.Perm (acc ++ (x :: xs) ++ b) := by
  intro b
  induction b with
  | nil =>
    intro acc m h
    obtain rfl : acc ++ x :: xs = m := by simpa [mergeAux] using h
    rw [List.append_nil]
  | cons y ys ih =>
    intro acc m h
    rw [mergeAux] at h
    split at h
    · cases h
    · cases h
    · have hp := hrec _ _ _ h
      rw [List.append_assoc, ← List.append_cons] at hp
      rwa [List.append_assoc]
    · have hp := ih _ _ h
      refine hp.trans ?_
      simp only [List.append_assoc, List.singleton_append]
      exact List.Perm.append_left acc List.perm_middle.symm

theorem mergeLoop_complete_perm {t : TransitivityTable α} {a : List α} :
    ∀ {b acc m : List α}, mergeLoop t a b acc = some (.complete m) →
      m.Perm (acc ++ a ++ b) := by
  induction a with
  | nil =>
    intro b acc m h
    obtain rfl : acc ++ b = m := by simpa [mergeLoop] using h
    rw [List.append_nil]
  | cons x xs ih =>
    intro b acc m h
    rw [mergeLoop] at h
    exact mergeAux_complete_perm (fun b' acc' m' hm => ih hm) b acc m h

/-- The elements spread across the bucket queue, in queue order. -/
def bucketsElems (s : Sort' α) : List α := s.buckets.flatMap id

theorem merge_true_elim {s s' : Sort' α} (h : s.merge = some (true, s')) :
    ∃ a b rest m, s.buckets = a :: b :: rest ∧
      mergeLoop s.table a b [] = some (.complete m) ∧
      s' = { s with buckets := rest ++ [m] } := by
  rw [Sort'.merge] at h
  split at h
  case h_2 => cases h
  case h_1 a b rest heq =>
    split at h
    · cases h
    · cases h
    · next m hm =>
      obtain ⟨-, rfl⟩ : True ∧ { s with buckets := rest ++ [m] } = s' := by
        simpa using h
      exact ⟨a, b, rest, m, heq, hm, rfl⟩

theorem merge_false_elim {s s' : Sort' α} (h : s.merge = some (false, s')) :
    ∃ a b rest q, s.buckets = a :: b :: rest ∧
      mergeLoop s.table a b [] = some (.question q) ∧
      s' = { s with question := some q } := by
  rw [Sort'.merge] at h
  split at h
  case h_2 => cases h
  case h_1 a b rest heq =>
    split at h
    · cases h
    · next q hq =>
      obtain ⟨-, rfl⟩ : True ∧ { s with question := some q } = s' := by
        simpa using h
      exact ⟨a, b, rest, q, heq, hq, rfl⟩
    · cases h

theorem merge_true_props {s s' : Sort' α} (h : s.merge = some (true, s')) :
    (bucketsElems s').Perm (bucketsElems s) ∧
      s'.done = s.done ∧ s'.result = s.result ∧ s'.table = s.table ∧
      s'.dataset = s.dataset ∧ s'.question = s.question ∧
      s'.buckets.length + 1 = s.buckets.length := by
  obtain ⟨a, b, rest, m, hb, hm, rfl⟩ := merge_true_elim h
  refine ⟨?_, rfl, rfl, rfl, rfl, rfl, by simp [hb]⟩
  have hp := mergeLoop_complete_perm hm
  rw [List.nil_append] at hp
  have h1 : (bucketsElems { s with buckets := rest ++ [m] }).Perm
      (rest.flatMap id ++ (a ++ b)) := by
    rw [bucketsElems]
    simp only [List.flatMap_append, List.flatMap_cons, List.flatMap_nil, List.append_nil, id]
    exact List.Perm.append_left _ hp
  refine h1.trans ?_
  rw [bucketsElems, hb]
  simp only [List.flatMap_cons, id]
  refine List.perm_append_comm.trans ?_
  rw [List.append_assoc]

theorem sortLoop_props {n : Nat} : ∀ {s s' : Sort' α} {c : Nat},
    sortLoop n s = some (s', c) →
    (bucketsElems s').Perm (bucketsElems s) ∧ s'.done = s.done ∧
      s'.result = s.result ∧ s'.table = s.table ∧ s'.dataset = s.dataset ∧
      s'.buckets.length + c = s.buckets.length := by
  induction n with
  | zero =>
    intro s s' c h
    cases h
  | succ n ih =>
    intro s s' c h
    rw [sortLoop] at h
    split at h
    · obtain ⟨rfl, rfl⟩ : s = s' ∧ 0 = c := by simpa using h
      exact ⟨List.Perm.refl _, rfl, rfl, rfl, rfl, by omega⟩
    · split at h
      case h_1 => cases h
      case h_2 s1 hm =>
        obtain ⟨rfl, rfl⟩ : s1 = s' ∧ 0 = c := by simpa using h
        obtain ⟨a2, b2, rest, q, hb, hq, rfl⟩ := merge_false_elim hm
        exact ⟨List.Perm.refl _, rfl, rfl, rfl, rfl, by simp⟩
      case h_3 s1 hm =>
        split at h
        case h_1 => cases h
        case h_2 s2 c0 hloop =>
          obtain ⟨rfl, rfl⟩ : s2 = s' ∧ c0 + 1 = c := by simpa using h
          obtain ⟨hperm, hdone, hres, htab, hds, hq, hlen⟩ := merge_true_props hm
          obtain ⟨hperm2, hdone2, hres2, htab2, hds2, hlen2⟩ := ih hloop
          exact ⟨hperm2.trans hperm, hdone2.trans hdone, hres2.trans hres,
            htab2.trans htab, hds2.trans hds, by omega⟩

theorem sort_props {s s' : Sort' α} {c : Nat} (h : s.sort = some (s', c)) :
    (bucketsElems s').Perm (bucketsElems s) ∧ s'.table = s.table ∧
      s'.dataset = s.dataset ∧
      (∀ r, s'.result = some r → s.result = some r ∨ r.Perm (bucketsElems s)) := by
  rw [Sort'.sort] at h
  split at h
  case h_1 hb =>
    obtain ⟨rfl, rfl⟩ : { s with done := true, result := some [] } = s' ∧ 0 = c := by
      simpa using h
    refine ⟨List.Perm.refl _, rfl, rfl, fun r hr => Or.inr ?_⟩
    obtain rfl : ([] : List α) = r := by simpa using hr
    rw [bucketsElems, hb]
    exact List.Perm.refl _
  case h_2 b hb =>
    obtain ⟨rfl, rfl⟩ : { s with done := true, result := some b } = s' ∧ 0 = c := by
      simpa using h
    refine ⟨List.Perm.refl _, rfl, rfl, fun r hr => Or.inr ?_⟩
    obtain rfl : b = r := by simpa using hr
    rw [bucketsElems, hb]
    simp
  case h_3 =>
    split at h
    case h_1 => cases h
    case h_2 s1 c1 hloop =>
      obtain ⟨hperm, hdone, hres, htab, hds, hlen⟩ := sortLoop_props hloop
      split at h
      case h_1 b hb1 =>
        obtain ⟨rfl, rfl⟩ : { s1 with done := true, result := some b } = s' ∧ c1 = c := by
          simpa using h
        refine ⟨hperm, htab, hds, fun r hr => Or.inr ?_⟩
        obtain rfl : b = r := by simpa using hr
        refine List.Perm.trans ?_ hperm
        rw [bucketsElems, hb1]
        simp
      case h_2 =>
        obtain ⟨rfl, rfl⟩ : s1 = s' ∧ c1 = c := by simpa using h
        exact ⟨hperm, htab, hds, fun r hr => Or.inl (hres ▸ hr)⟩

theorem process_perm {oracle : α → α → Ordering} {ofuel : Nat} :
    ∀ {n : Nat} {s : Sort' α} {qs0 : List (α × α)} {m0 : Nat} {r : List α}
      {qs : List (α × α)} {m : Nat} {M : List α},
      BaseAgent.process oracle ofuel n s qs0 m0 = some (r, qs, m) →
      (bucketsElems s).Perm M →
      (∀ r', s.result = some r' → r'.Perm M) →
      r.Perm M := by
  intro n
  induction n with
  | zero =>
    intro s qs0 m0 r qs m M h
    cases h
  | succ n ih =>
    intro s qs0 m0 r qs m M h hperm hres
    rw [BaseAgent.process] at h
    split at h
    · split at h
      case h_1 r0 hr0 =>
        obtain ⟨rfl, -, -⟩ : r0 = r ∧ qs0.reverse = qs ∧ m0 = m := by simpa using h
        exact hres r0 hr0
      case h_2 => cases h
    · split at h
      case h_1 => cases h
      case h_2 s1 c hs =>
        obtain ⟨hp1, htab1, hds1, hres1⟩ := sort_props hs
        have hperm1 : (bucketsElems s1).Perm M := hp1.trans hperm
        have hres1' : ∀ r', s1.result = some r' → r'.Perm M := by
          intro r' hr'
          rcases hres1 r' hr' with hold | hnew
          · exact hres r' hold
          · exact hnew.trans hperm
        split at h
        case h_1 a b hab =>
          split at h
          case h_1 tb htb => exact ih h hperm1 hres1'
          case h_2 => cases h
        case h_2 => exact ih h hperm1 hres1'

theorem bucketsElems_init (ds : List α) : bucketsElems (Sort'.init ds) = ds := by
  rw [bucketsElems, Sort'.init]
  induction ds with
  | nil => rfl
  | cons x xs ih => simpa using ih

/-! ### Claims C5, C9, C4 -/

/-- C5: suspension is non-destructive and exact — when the merge scan of the
two front buckets meets an `Unknown` comparison, `Sort.merge` returns `False`
having set the pending question to exactly that pair (whose relation is
`Unknown` in the store) and having changed nothing else: the bucket queue,
table, result and done flag are all exactly as before, so the resumed call
restarts the merge of the same two original buckets. -/
theorem claimC5 {s : Sort' α} {a b : List α} {rest : List (List α)} {q : α × α}
    (hb : s.buckets = a :: b :: rest)
    (hq : mergeLoop s.table a b [] = some (.question q)) :
    s.merge = some (false, { s with question := some q }) ∧
      s.table.orderof q.1 q.2 = some Ordering.Unknown ∧
      ({ s with question := some q } : Sort' α).buckets = a :: b :: rest := by
  refine ⟨?_, mergeLoop_question_unknown hq, hb⟩
  rw [Sort'.merge, hb]
  simp only [hq]

/-- Witness for C5: the freshly initialized engine over `[0, 1]` suspends on
the pair `(0, 1)` with the queue untouched. -/
theorem claimC5_witness :
    (Sort'.init ([0, 1] : List Nat)).merge =
      some (false, { Sort'.init ([0, 1] : List Nat) with question := some (0, 1) }) ∧
      (Sort'.init ([0, 1] : List Nat)).table.orderof 0 1 = some Ordering.Unknown ∧
      ({ Sort'.init ([0, 1] : List Nat) with question := some (0, 1) } : Sort' Nat).buckets
        = [0] :: [1] :: [] := by
  have hb : (Sort'.init ([0, 1] : List Nat)).buckets = [0] :: [1] :: [] := rfl
  have hq : mergeLoop (Sort'.init ([0, 1] : List Nat)).table [0] [1] [] =
      some (.question (0, 1)) := rfl
  exact claimC5 hb hq

/-- C9: the sort preserves the elements — every merge that returns `True`
keeps the multiset of elements held across all buckets unchanged (the new
bucket queue's elements are a permutation of the old), and therefore a
completed driver run returns a permutation of the input dataset. -/
theorem claimC9 :
    (∀ s s' : Sort' α, s.merge = some (true, s') →
      (bucketsElems s').Perm (bucketsElems s)) ∧
    (∀ (oracle : α → α → Ordering) (ofuel lfuel : Nat) (ds : List α)
      (r : List α) (qs : List (α × α)) (m : Nat),
      BaseAgent.run oracle ofuel lfuel ds = some (r, qs, m) → r.Perm ds) := by
  constructor
  · exact fun s s' h => (merge_true_props h).1
  · intro oracle ofuel lfuel ds r qs m h
    rw [BaseAgent.run] at h
    refine process_perm h ?_ ?_
    · rw [bucketsElems_init]
    · intro r' hr'
      cases hr'

/-- Witness for C9: the completed run over `[0, 1, 2]` returns a permutation
of the dataset. -/
theorem claimC9_witness :
    ([0, 1, 2] : List Nat).Perm [0, 1, 2] :=
  (claimC9.2 (fun x y : Nat => if x < y then Ordering.Lower else Ordering.Higher)
    30 20 [0, 1, 2] [0, 1, 2] [(0, 1), (2, 0), (2, 1)] 2 (by rfl))

/-- C4 counterexample: with dataset `[A, B, C] = [0, 1, 2]` and the oracle
consistent with `A < B < C`, the driver asks three questions, not two: after
the first merge the merged bucket `[A, B]` goes to the back of the queue, so
the next merge compares `C` against `A` and then `C` against `B`. -/
theorem claimC4_counterexample :
    (BaseAgent.run (fun x y : Nat => if x < y then Ordering.Lower else Ordering.Higher)
        30 20 [0, 1, 2]).map (fun out => out.2.1.length) = some 3 ∧ (3 : Nat) ≠ 2 := by
  constructor
  · rfl
  · decide

/-- C4 (amended): for dataset `[A, B, C] = [0, 1, 2]` with the oracle
consistent with `A < B < C`, the driver terminates with final result
`[A, B, C]` after two completed merges, but it asks three questions —
`(A, B)`, then `(C, A)`, then `(C, B)` — because the merged bucket `[A, B]`
moves to the back of the queue and the second merge starts at `C` versus `A`;
the pair `(A, C)` is resolved by the oracle's direct answer to the second
question, not by transitivity, and no question is saved. -/
theorem claimC4 :
    BaseAgent.run (fun x y : Nat => if x < y then Ordering.Lower else Ordering.Higher)
        30 20 [0, 1, 2] =
      some ([0, 1, 2], [(0, 1), (2, 0), (2, 1)], 2) := by rfl

/-! ### Counting unresolved entries -/

/-- Number of `Unknown` entries in the store. -/
def unknownCount (t : TransitivityTable α) : Nat :=
  t.data.countP fun e => e.2 == Ordering.Unknown

theorem lookup_mem {β : Type} {d : List ((α × α) × β)} {k : α × α} {w : β}
    (h : d.lookup k = some w) : (k, w) ∈ d := by
  induction d with
  | nil => cases h
  | cons e es ih =>
    obtain ⟨ke, ve⟩ := e
    rw [lookup_cons_eq] at h
    by_cases hk : k = ke
    · subst hk
      rw [if_pos rfl] at h
      obtain rfl : ve = w := by simpa using h
      exact List.mem_cons_self _ _
    · rw [if_neg hk] at h
      exact List.mem_cons_of_mem _ (ih h)

theorem one_le_unknownCount {t : TransitivityTable α} {x y : α}
    (h : t.orderof x y = some Ordering.Unknown) : 1 ≤ unknownCount t := by
  rw [unknownCount]
  have hm := lookup_mem h
  calc 1 = [((x, y), Ordering.Unknown)].countP (fun e => e.2 == Ordering.Unknown) := by
        simp
    _ ≤ _ := by
        refine List.Subperm.countP_le _ ?_
        rw [List.singleton_subperm_iff]
        exact hm

theorem unknownCount_le_length (t : TransitivityTable α) :
    unknownCount t ≤ t.data.length :=
  List.countP_le_length _

/-- Overwriting the unique `Unknown` entry at a present key with a definite
value decreases the `Unknown` count by exactly one. -/
theorem unknownCount_dictSet {d : List ((α × α) × Ordering)} {k : α × α}
    (hnd : (d.map Prod.fst).Nodup) (hk : d.lookup k = some Ordering.Unknown)
    {v : Ordering} (hv : v ≠ Ordering.Unknown) :
    ((dictSet d k v).countP fun e => e.2 == Ordering.Unknown) + 1 =
      d.countP fun e => e.2 == Ordering.Unknown := by
  rw [dictSet, if_pos (by simp [hk])]
  induction d with
  | nil => cases hk
  | cons e es ih =>
    obtain ⟨ke, ve⟩ := e
    rw [List.map_cons, List.nodup_cons] at hnd
    rw [lookup_cons_eq] at hk
    by_cases hke : k = ke
    · subst hke
      rw [if_pos rfl] at hk
      obtain rfl : ve = Ordering.Unknown := by simpa using hk
      have hmap : es.map (fun e => if e.1 = k then (k, v) else e) = es := by
        conv_rhs => rw [← List.map_id es]
        refine List.map_congr_left fun e he => ?_
        have hek : e.1 ≠ k := fun hek => hnd.1 (List.mem_map.mpr ⟨e, he, hek⟩)
        simp [hek]
      rw [List.map_cons, hmap]
      simp [List.countP_cons, hv]
    · rw [if_neg hke] at hk
      have hne2 : ((ke, ve) : (α × α) × Ordering).1 ≠ k :=
        by simpa using fun hc => hke hc.symm
      rw [List.map_cons]
      have := ih hnd.2 hk
      simp only [List.countP_cons, if_neg hne2]
      omega

/-- The double write of two definite values over the two `Unknown` directions
of a pair removes exactly two `Unknown` entries. -/
theorem unknownCount_write2 {t : TransitivityTable α} (hwf : WF t) {o tg : α}
    {v : Ordering} (hv : v ≠ Ordering.Unknown)
    (hc : t.orderof o tg = some Ordering.Unknown)
    (hc2 : t.orderof tg o = some Ordering.Unknown) :
    unknownCount ((t.setPair (o, tg) v).setPair (tg, o) v.opposite) + 2 =
      unknownCount t := by
  have hne : o ≠ tg := (hwf.ne_of_orderof_some hc).2.2
  have hvop : v.opposite ≠ Ordering.Unknown := by
    cases v with
    | Unknown => exact absurd rfl hv
    | Lower => simp [Ordering.opposite]
    | Higher => simp [Ordering.opposite]
  have hk1 : (t.data.lookup (o, tg)).isSome := by
    have hcc := hc
    rw [TransitivityTable.orderof] at hcc
    simp [hcc]
  have hnd1 : ((dictSet t.data (o, tg) v).map Prod.fst).Nodup := by
    rw [keys_dictSet _ _ _ hk1]
    exact hwf.keysNodup
  have hl2 : (dictSet t.data (o, tg) v).lookup (tg, o) = some Ordering.Unknown := by
    rw [lookup_dictSet _ _ _ _ hk1, if_neg (by simp [Prod.ext_iff, hne.symm])]
    exact hc2
  have step2 := unknownCount_dictSet hnd1 hl2 hvop
  have step1 := unknownCount_dictSet hwf.keysNodup hc hv
  have goal_eq : unknownCount ((t.setPair (o, tg) v).setPair (tg, o) v.opposite)
      = (dictSet (dictSet t.data (o, tg) v) (tg, o) v.opposite).countP
        fun e => e.2 == Ordering.Unknown := rfl
  have base_eq : unknownCount t = t.data.countP fun e => e.2 == Ordering.Unknown := rfl
  rw [goal_eq, base_eq]
  omega

/-! ### A consistent oracle never conflicts and `order` always succeeds -/

section ConsistentOracle

variable [LinearOrder α]

/-- Every recorded `Lower` fact agrees with the ground-truth total order. -/
def Sound (t : TransitivityTable α) : Prop :=
  ∀ x y : α, KnownLower t x y → x < y

theorem sound_init (ds : List α) : Sound (TransitivityTable.init ds) := by
  intro x y hxy
  rw [KnownLower, init_orderof] at hxy
  by_cases h : x ∈ ds ∧ y ∈ ds ∧ x ≠ y <;> simp [h] at hxy

/-- With enough fuel, asserting a truth-consistent definite value on an
unresolved pair succeeds, stays sound and well-formed, and resolves at least
that pair (two `Unknown` entries disappear). -/
theorem order_loop_success (f : Nat) :
    (∀ (t : TransitivityTable α) (o tg : α) (v : Ordering), WF t → Sound t →
       t.orderof o tg = some Ordering.Unknown →
       ((v = Ordering.Lower ∧ o < tg) ∨ (v = Ordering.Higher ∧ tg < o)) →
       unknownCount t ≤ f →
       ∃ t', TransitivityTable.order f t o tg v = .ok t' ∧ WF t' ∧ Sound t' ∧
         unknownCount t' + 2 ≤ unknownCount t ∧ t'.dataset = t.dataset) ∧
    (∀ (ps : List (α × α)) (t : TransitivityTable α), WF t → Sound t →
       (∀ p ∈ ps, p.1 ∈ t.dataset ∧ p.2 ∈ t.dataset ∧ p.1 < p.2) →
       unknownCount t ≤ f →
       ∃ t', tsLoopAux (TransitivityTable.order f) ps t = .ok t' ∧ WF t' ∧ Sound t' ∧
         unknownCount t' ≤ unknownCount t ∧ t'.dataset = t.dataset) := by
  induction f with
  | zero =>
    constructor
    · intro t o tg v _ _ hc _ hcount
      exact absurd (one_le_unknownCount hc) (by omega)
    · intro ps
      induction ps with
      | nil =>
        intro t hwf hsound _ _
        exact ⟨t, rfl, hwf, hsound, Nat.le_refl _, rfl⟩
      | cons p ps ih =>
        obtain ⟨l, hd⟩ := p
        intro t hwf hsound hps hcount
        obtain ⟨hl, hh, hlt⟩ := hps (l, hd) (List.mem_cons_self _ _)
        have hne : l ≠ hd := ne_of_lt hlt
        have hsome : (t.orderof l hd).isSome := (hwf.dom l hd).mpr ⟨hl, hh, hne⟩
        obtain ⟨c, hcv⟩ := Option.isSome_iff_exists.mp hsome
        have hcL : c = Ordering.Lower := by
          cases c with
          | Lower => rfl
          | Unknown => exact absurd (one_le_unknownCount hcv) (by omega)
          | Higher =>
            have := hsound hd l (hwf.antisym l hd Ordering.Higher hcv)
            exact absurd hlt (not_lt_of_gt this)
        subst hcL
        obtain ⟨t', h', rest⟩ := ih t hwf hsound
          (fun q hq => hps q (List.mem_cons_of_mem _ hq)) hcount
        refine ⟨t', ?_, rest⟩
        rw [tsLoopAux, if_neg (by simp [hcv])]
        exact h'
  | succ g ihg =>
    have hord : ∀ (t : TransitivityTable α) (o tg : α) (v : Ordering), WF t → Sound t →
        t.orderof o tg = some Ordering.Unknown →
        ((v = Ordering.Lower ∧ o < tg) ∨ (v = Ordering.Higher ∧ tg < o)) →
        unknownCount t ≤ g + 1 →
        ∃ t', TransitivityTable.order (g + 1) t o tg v = .ok t' ∧ WF t' ∧ Sound t' ∧
          unknownCount t' + 2 ≤ unknownCount t ∧ t'.dataset = t.dataset := by
      intro t o tg v hwf hsound hc hcons hcount
      obtain ⟨ho, htg, hne⟩ := hwf.ne_of_orderof_some hc
      have hc2 : t.orderof tg o = some Ordering.Unknown :=
        hwf.antisym o tg Ordering.Unknown hc
      have hvdef : v ≠ Ordering.Unknown := by
        rcases hcons with ⟨rfl, -⟩ | ⟨rfl, -⟩ <;> simp
      have hwf2 : WF ((t.setPair (o, tg) v).setPair (tg, o) v.opposite) :=
        wf_write2 hwf v (by simp [hc])
      have hsound2 : Sound ((t.setPair (o, tg) v).setPair (tg, o) v.opposite) := by
        intro x y hxy
        rw [knownLower_write2_unknown_iff hne v hc hc2] at hxy
        rcases hxy with hS | ⟨rfl, rfl, rfl⟩ | ⟨rfl, rfl, rfl⟩
        · exact hsound x y hS
        · rcases hcons with ⟨-, hlt⟩ | ⟨hvv, -⟩
          · exact hlt
          · cases hvv
        · rcases hcons with ⟨hvv, -⟩ | ⟨-, hlt⟩
          · cases hvv
          · exact hlt
      have hμ2 := unknownCount_write2 hwf hvdef hc hc2
      have hds2 : ((t.setPair (o, tg) v).setPair (tg, o) v.opposite).dataset =
        t.dataset := write2_dataset t o tg v
      have hcount1 : 1 ≤ unknownCount t := one_le_unknownCount hc
      have hpairs2 : ∀ p ∈ tsPairs ((t.setPair (o, tg) v).setPair (tg, o) v.opposite) o,
          p.1 ∈ ((t.setPair (o, tg) v).setPair (tg, o) v.opposite).dataset ∧
          p.2 ∈ ((t.setPair (o, tg) v).setPair (tg, o) v.opposite).dataset ∧
          p.1 < p.2 := by
        intro p hp
        obtain ⟨⟨hm1, -, hlow⟩, ⟨hm2, -, hhigh⟩⟩ := mem_tsPairs.mp hp
        have h1 := hsound2 p.1 o hlow
        have h2 := hsound2 o p.2 (hwf2.antisym p.2 o Ordering.Higher hhigh)
        exact ⟨hm1, hm2, lt_trans h1 h2⟩
      obtain ⟨t3, h3, hwf3, hsound3, hμ3, hds3⟩ :=
        ihg.2 (tsPairs ((t.setPair (o, tg) v).setPair (tg, o) v.opposite) o)
          _ hwf2 hsound2 hpairs2 (by omega)
      have hpairs3 : ∀ p ∈ tsPairs t3 tg, p.1 ∈ t3.dataset ∧ p.2 ∈ t3.dataset ∧
          p.1 < p.2 := by
        intro p hp
        obtain ⟨⟨hm1, -, hlow⟩, ⟨hm2, -, hhigh⟩⟩ := mem_tsPairs.mp hp
        have h1 := hsound3 p.1 tg hlow
        have h2 := hsound3 tg p.2 (hwf3.antisym p.2 tg Ordering.Higher hhigh)
        exact ⟨hm1, hm2, lt_trans h1 h2⟩
      obtain ⟨t4, h4, hwf4, hsound4, hμ4, hds4⟩ :=
        ihg.2 (tsPairs t3 tg) t3 hwf3 hsound3 hpairs3 (by omega)
      refine ⟨t4, ?_, hwf4, hsound4, by omega, by rw [hds4, hds3, hds2]⟩
      simp only [TransitivityTable.order, transitivity_setAux]
      rw [if_pos ho, if_pos htg, hc]
      simp only
      rw [if_neg (by simp), hc2]
      simp only
      rw [if_neg (by simp)]
      simp only [h3, h4]
    refine ⟨hord, fun ps => ?_⟩
    induction ps with
    | nil =>
      intro t hwf hsound _ _
      exact ⟨t, rfl, hwf, hsound, Nat.le_refl _, rfl⟩
    | cons p ps ih =>
      obtain ⟨l, hd⟩ := p
      intro t hwf hsound hps hcount
      obtain ⟨hl, hh, hlt⟩ := hps (l, hd) (List.mem_cons_self _ _)
      have hne : l ≠ hd := ne_of_lt hlt
      have hsome : (t.orderof l hd).isSome := (hwf.dom l hd).mpr ⟨hl, hh, hne⟩
      obtain ⟨c, hcv⟩ := Option.isSome_iff_exists.mp hsome
      cases c with
      | Lower =>
        obtain ⟨t', h', rest⟩ := ih t hwf hsound
          (fun q hq => hps q (List.mem_cons_of_mem _ hq)) hcount
        refine ⟨t', ?_, rest⟩
        rw [tsLoopAux, if_neg (by simp [hcv])]
        exact h'
      | Higher =>
        have := hsound hd l (hwf.antisym l hd Ordering.Higher hcv)
        exact absurd hlt (not_lt_of_gt this)
      | Unknown =>
        obtain ⟨u, hu, hwfu, hsoundu, hμu, hdsu⟩ :=
          hord t l hd Ordering.Lower hwf hsound hcv (Or.inl ⟨rfl, hlt⟩) hcount
        obtain ⟨t', h', hwf', hsound', hμ', hds'⟩ := ih u hwfu hsoundu
          (fun q hq => by
            obtain ⟨hq1, hq2, hq3⟩ := hps q (List.mem_cons_of_mem _ hq)
            rw [hdsu]
            exact ⟨hq1, hq2, hq3⟩) (by omega)
        refine ⟨t', ?_, hwf', hsound', by omega, by rw [hds', hdsu]⟩
        rw [tsLoopAux, if_pos (by simp [hcv]), hu]
        exact h'

end ConsistentOracle

/-! ### Where the merge scan's question comes from, and when it cannot crash -/

theorem mergeAux_question_mem {t : TransitivityTable α} {x : α} {xs : List α}
    {recA : List α → List α → Option (MergeStep α)}
    (hrec : ∀ b acc q, recA b acc = some (.question q) → q.1 ∈ xs ∧ q.2 ∈ b) :
    ∀ b acc q, mergeAux t x xs recA b acc = some (.question q) →
      q.1 ∈ x :: xs ∧ q.2 ∈ b := by
  intro b
  induction b with
  | nil =>
    intro acc q h
    cases h
  | cons y ys ih =>
    intro acc q h
    rw [mergeAux] at h
    split at h
    · cases h
    · obtain rfl : (x, y) = q := by simpa using h
      exact ⟨List.mem_cons_self _ _, List.mem_cons_self _ _⟩
    · obtain ⟨h1, h2⟩ := hrec _ _ _ h
      exact ⟨List.mem_cons_of_mem _ h1, h2⟩
    · obtain ⟨h1, h2⟩ := ih _ _ h
      exact ⟨h1, List.mem_cons_of_mem _ h2⟩

theorem mergeLoop_question_mem {t : TransitivityTable α} {a : List α} :
    ∀ {b acc : List α} {q : α × α}, mergeLoop t a b acc = some (.question q) →
      q.1 ∈ a ∧ q.2 ∈ b := by
  induction a with
  | nil =>
    intro b acc q h
    cases h
  | cons x xs ih =>
    intro b acc q h
    rw [mergeLoop] at h
    exact mergeAux_question_mem (fun b' acc' q' hq => ih hq) b acc q h

theorem mergeAux_isSome {t : TransitivityTable α} {x : α} {xs : List α}
    {recA : List α → List α → Option (MergeStep α)}
    (hrec : ∀ b acc, (∀ u ∈ xs, ∀ w ∈ b, (t.orderof u w).isSome) →
      (recA b acc).isSome) :
    ∀ b acc, (∀ u ∈ x :: xs, ∀ w ∈ b, (t.orderof u w).isSome) →
      (mergeAux t x xs recA b acc).isSome := by
  intro b
  induction b with
  | nil =>
    intro acc _
    simp [mergeAux]
  | cons y ys ih =>
    intro acc hall
    rw [mergeAux]
    have hxy : (t.orderof x y).isSome :=
      hall x (List.mem_cons_self _ _) y (List.mem_cons_self _ _)
    obtain ⟨c, hc⟩ := Option.isSome_iff_exists.mp hxy
    rw [hc]
    cases c with
    | Unknown => simp
    | Lower =>
      exact hrec _ _ fun u hu w hw => hall u (List.mem_cons_of_mem _ hu) w hw
    | Higher =>
      exact ih _ fun u hu w hw => hall u hu w (List.mem_cons_of_mem _ hw)

theorem mergeLoop_isSome {t : TransitivityTable α} {a : List α} :
    ∀ {b acc : List α}, (∀ u ∈ a, ∀ w ∈ b, (t.orderof u w).isSome) →
      (mergeLoop t a b acc).isSome := by
  induction a with
  | nil =>
    intro b acc _
    simp [mergeLoop]
  | cons x xs ih =>
    intro b acc hall
    rw [mergeLoop]
    exact mergeAux_isSome (fun b' acc' hall' => ih hall') b acc hall

/-! ### The outcome of `Sort.sort`: done, or suspended on an Unknown pair -/

theorem sortLoop_outcome {n : Nat} : ∀ {s s' : Sort' α} {c : Nat},
    sortLoop n s = some (s', c) →
    (s'.question = s.question ∧ s'.buckets.length ≤ 1 ∧
      (1 ≤ s.buckets.length → 1 ≤ s'.buckets.length)) ∨
    (∃ q a b rest, s'.question = some q ∧ s'.buckets = a :: b :: rest ∧
      q.1 ∈ a ∧ q.2 ∈ b ∧ s'.table.orderof q.1 q.2 = some Ordering.Unknown) := by
  induction n with
  | zero =>
    intro s s' c h
    cases h
  | succ n ih =>
    intro s s' c h
    rw [sortLoop] at h
    split at h
    case isTrue hle =>
      obtain ⟨rfl, rfl⟩ : s = s' ∧ 0 = c := by simpa using h
      exact Or.inl ⟨rfl, by omega, fun h1 => h1⟩
    case isFalse hgt =>
      split at h
      case h_1 => cases h
      case h_2 s1 hm =>
        obtain ⟨rfl, rfl⟩ : s1 = s' ∧ 0 = c := by simpa using h
        obtain ⟨a, b, rest, q, hb, hq, rfl⟩ := merge_false_elim hm
        obtain ⟨hq1, hq2⟩ := mergeLoop_question_mem hq
        exact Or.inr ⟨q, a, b, rest, rfl, hb, hq1, hq2, mergeLoop_question_unknown hq⟩
      case h_3 s1 hm =>
        split at h
        case h_1 => cases h
        case h_2 s2 c0 hloop =>
          obtain ⟨rfl, rfl⟩ : s2 = s' ∧ c0 + 1 = c := by simpa using h
          obtain ⟨hperm, hdone, hres, htab, hds, hqeq, hlen⟩ := merge_true_props hm
          rcases ih hloop with ⟨hq', hle', himp⟩ | hout
          · refine Or.inl ⟨hq'.trans hqeq, hle', fun _ => himp ?_⟩
            omega
          · exact Or.inr hout

theorem sort_length {s s' : Sort' α} {c : Nat} (h : s.sort = some (s', c)) :
    s'.buckets.length + c = s.buckets.length := by
  rw [Sort'.sort] at h
  split at h
  case h_1 hb =>
    obtain ⟨rfl, rfl⟩ : { s with done := true, result := some [] } = s' ∧ 0 = c := by
      simpa using h
    simp
  case h_2 b hb =>
    obtain ⟨rfl, rfl⟩ : { s with done := true, result := some b } = s' ∧ 0 = c := by
      simpa using h
    simp
  case h_3 =>
    split at h
    case h_1 => cases h
    case h_2 s1 c1 hloop =>
      have hlen := (sortLoop_props hloop).2.2.2.2.2
      split at h
      case h_1 b hb1 =>
        obtain ⟨rfl, rfl⟩ : { s1 with done := true, result := some b } = s' ∧ c1 = c := by
          simpa using h
        simpa using hlen
      case h_2 =>
        obtain ⟨rfl, rfl⟩ : s1 = s' ∧ c1 = c := by simpa using h
        exact hlen

theorem sort_outcome {s s' : Sort' α} {c : Nat} (hq0 : s.question = none)
    (h : s.sort = some (s', c)) :
    (s'.done = true ∧ s'.question = none ∧ (∃ r, s'.result = some r) ∧
      (1 ≤ s.buckets.length → 1 ≤ s'.buckets.length)) ∨
    (s'.done = s.done ∧ ∃ q a b rest, s'.question = some q ∧
      s'.buckets = a :: b :: rest ∧ q.1 ∈ a ∧ q.2 ∈ b ∧
      s'.table = s.table ∧ s.table.orderof q.1 q.2 = some Ordering.Unknown) := by
  rw [Sort'.sort] at h
  split at h
  case h_1 hb =>
    obtain ⟨rfl, rfl⟩ : { s with done := true, result := some [] } = s' ∧ 0 = c := by
      simpa using h
    refine Or.inl ⟨rfl, hq0, ⟨[], rfl⟩, fun h1 => ?_⟩
    rw [hb] at h1
    simpa using h1
  case h_2 b hb =>
    obtain ⟨rfl, rfl⟩ : { s with done := true, result := some b } = s' ∧ 0 = c := by
      simpa using h
    exact Or.inl ⟨rfl, hq0, ⟨b, rfl⟩, fun h1 => h1⟩
  case h_3 bks hne1 hne2 =>
    split at h
    case h_1 => cases h
    case h_2 s1 c1 hloop =>
      obtain ⟨hperm, hdone, hres, htab, hds, hlen⟩ := sortLoop_props hloop
      rcases sortLoop_outcome hloop with ⟨hq', hle', himp⟩ | hout
      · -- the loop ran the queue down to one bucket
        split at h
        case h_1 b hb1 =>
          obtain ⟨rfl, rfl⟩ : { s1 with done := true, result := some b } = s' ∧ c1 = c := by
            simpa using h
          exact Or.inl ⟨rfl, hq'.trans hq0, ⟨b, rfl⟩, fun _ => by simp [hb1]⟩
        case h_2 hnb =>
          exfalso
          have h2le : 1 ≤ s.buckets.length := by
            cases hbk : s.buckets with
            | nil => exact absurd hbk hne1
            | cons a rest => simp
          have h1 : 1 ≤ s1.buckets.length := himp h2le
          have hs1len : s1.buckets.length = 1 := by omega
          obtain ⟨b, hb1⟩ : ∃ b, s1.buckets = [b] := by
            cases hbk : s1.buckets with
            | nil => rw [hbk] at hs1len; simp at hs1len
            | cons a rest =>
              rw [hbk] at hs1len
              simp at hs1len
              exact ⟨a, by rw [hs1len]⟩
          exact hnb b hb1
      · obtain ⟨q, a, b, rest, hq', hb', hq1, hq2, hunk⟩ := hout
        split at h
        case h_1 b0 hb1 =>
          rw [hb1] at hb'
          cases hb'
        case h_2 =>
          obtain ⟨rfl, rfl⟩ : s1 = s' ∧ c1 = c := by simpa using h
          exact Or.inr ⟨hdone, q, a, b, rest, hq', hb', hq1, hq2, htab,
            htab ▸ hunk⟩

/-! ### `Sort.sort` always returns when fronts are comparable -/

theorem merge_fronts_isSome {s : Sort' α} {a b : List α} {rest : List (List α)}
    (hwf : WF s.table) (hb : s.buckets = a :: b :: rest)
    (hnodup : (bucketsElems s).Nodup)
    (hsub : ∀ x ∈ bucketsElems s, x ∈ s.table.dataset) :
    ∀ u ∈ a, ∀ w ∈ b, (s.table.orderof u w).isSome := by
  intro u hu w hw
  have hjoin : bucketsElems s = a ++ (b ++ rest.flatMap id) := by
    rw [bucketsElems, hb]
    simp
  rw [hjoin] at hnodup hsub
  have hdisj : a.Disjoint (b ++ rest.flatMap id) := List.disjoint_of_nodup_append hnodup
  have huw : u ≠ w := by
    intro hc
    subst hc
    exact hdisj hu (List.mem_append_left _ hw)
  refine (hwf.dom u w).mpr ⟨?_, ?_, huw⟩
  · exact hsub u (List.mem_append_left _ hu)
  · exact hsub w (List.mem_append_right _ (List.mem_append_left _ hw))

theorem sortLoop_isSome {n : Nat} : ∀ {s : Sort' α}, WF s.table →
    (bucketsElems s).Nodup → (∀ x ∈ bucketsElems s, x ∈ s.table.dataset) →
    s.buckets.length + 1 ≤ n →
    ∃ out, sortLoop n s = some out := by
  induction n with
  | zero =>
    intro s _ _ _ hfuel
    exact absurd hfuel (by omega)
  | succ n ih =>
    intro s hwf hnodup hsub hfuel
    by_cases hle : s.buckets.length ≤ 1
    · exact ⟨(s, 0), by rw [sortLoop, if_pos hle]⟩
    · obtain ⟨a, b, rest, hb⟩ : ∃ u v w, s.buckets = u :: v :: w := by
        cases hbk : s.buckets with
        | nil => rw [hbk] at hle; simp at hle
        | cons x rest0 =>
          cases rest0 with
          | nil => rw [hbk] at hle; simp at hle
          | cons y rest1 => exact ⟨x, y, rest1, rfl⟩
      have hml := @mergeLoop_isSome α _ s.table a b []
        (merge_fronts_isSome hwf hb hnodup hsub)
      obtain ⟨step, hstep⟩ := Option.isSome_iff_exists.mp hml
      cases step with
      | question q =>
        refine ⟨({ s with question := some q }, 0), ?_⟩
        rw [sortLoop, if_neg hle]
        have hm : s.merge = some (false, { s with question := some q }) := by
          rw [Sort'.merge, hb]
          simp only [hstep]
        simp only [hm]
      | complete m =>
        have hm : s.merge = some (true, { s with buckets := rest ++ [m] }) := by
          rw [Sort'.merge, hb]
          simp only [hstep]
        obtain ⟨hperm, -, -, htab, -, -, hlen⟩ := merge_true_props hm
        obtain ⟨⟨s2, c2⟩, hrec⟩ := ih (s := { s with buckets := rest ++ [m] })
          (by rw [htab] at hwf ⊢; exact hwf)
          (hperm.nodup_iff.mpr hnodup)
          (fun x hx => hsub x (hperm.mem_iff.mp hx))
          (by rw [hb] at hfuel; simp only [List.length_cons] at hfuel ⊢
              simp only [List.length_append, List.length_cons, List.length_nil]
              omega)
        refine ⟨(s2, c2 + 1), ?_⟩
        rw [sortLoop, if_neg hle]
        simp only [hm, hrec]

theorem sort_isSome {s : Sort' α} (hwf : WF s.table)
    (hnodup : (bucketsElems s).Nodup)
    (hsub : ∀ x ∈ bucketsElems s, x ∈ s.table.dataset) :
    ∃ out, s.sort = some out := by
  cases hbk : s.buckets with
  | nil =>
    refine ⟨({ s with done := true, result := some [] }, 0), ?_⟩
    rw [Sort'.sort]
    simp only [hbk]
  | cons a rest0 =>
    cases rest0 with
    | nil =>
      refine ⟨({ s with done := true, result := some a }, 0), ?_⟩
      rw [Sort'.sort]
      simp only [hbk]
    | cons b rest =>
      obtain ⟨⟨s1, c1⟩, hloop⟩ := sortLoop_isSome (n := s.buckets.length + 1)
        hwf hnodup hsub (by omega)
      rw [hbk] at hloop
      cases hbk1 : s1.buckets with
      | nil =>
        refine ⟨(s1, c1), ?_⟩
        rw [Sort'.sort]
        simp only [hbk, hloop, hbk1]
      | cons a1 rest1 =>
        cases rest1 with
        | nil =>
          refine ⟨({ s1 with done := true, result := some a1 }, c1), ?_⟩
          rw [Sort'.sort]
          simp only [hbk, hloop, hbk1]
        | cons b1 rest1' =>
          refine ⟨(s1, c1), ?_⟩
          rw [Sort'.sort]
          simp only [hbk, hloop, hbk1]

/-! ### Termination of the driver loop under a consistent oracle -/

section Termination

variable [LinearOrder α]

theorem process_terminates {ds : List α} (hnd : ds.Nodup)
    {oracle : α → α → Ordering}
    (horacle : ∀ a b : α, a ≠ b →
      (a < b → oracle a b = Ordering.Lower) ∧ (b < a → oracle a b = Ordering.Higher))
    (ofuel : Nat) :
    ∀ (n : Nat) (s : Sort' α) (qs0 : List (α × α)) (m0 : Nat),
      WF s.table → Closed s.table → Sound s.table → s.table.dataset = ds →
      (bucketsElems s).Perm ds → s.question = none → s.done = false →
      unknownCount s.table ≤ ofuel →
      unknownCount s.table + 2 ≤ n →
      ∃ r qs m, BaseAgent.process oracle ofuel n s qs0 m0 = some (r, qs, m) ∧
        m ≤ m0 + (s.buckets.length - 1) := by
  intro n
  induction n with
  | zero =>
    intro s qs0 m0 _ _ _ _ _ _ _ _ hfuel
    exact absurd hfuel (by omega)
  | succ n ih =>
    intro s qs0 m0 hwf hcl hsound hdsT hperm hq hdone hofuel hfuel
    have hnodup : (bucketsElems s).Nodup := hperm.nodup_iff.mpr hnd
    have hsub : ∀ x ∈ bucketsElems s, x ∈ s.table.dataset := by
      intro x hx
      rw [hdsT]
      exact hperm.mem_iff.mp hx
    obtain ⟨⟨s1, c⟩, hsort⟩ := sort_isSome hwf hnodup hsub
    obtain ⟨hp1, htab1, hds1, hres1⟩ := sort_props hsort
    have hlen1 := sort_length hsort
    rcases sort_outcome hq hsort with ⟨hdone1, hq1, ⟨r, hr⟩, hposlen⟩ |
      ⟨hdone1, q, a, b, rest, hq1, hb1, hqa, hqb, htabeq, hunk⟩
    · -- sorting finished: the next iteration returns the result
      cases n with
      | zero => exact absurd hfuel (by omega)
      | succ n' =>
        refine ⟨r, qs0.reverse, m0 + c, ?_, ?_⟩
        · rw [BaseAgent.process]
          rw [if_neg (by simp [hdone])]
          simp only [hsort, hq1]
          rw [BaseAgent.process]
          rw [if_pos (by simp [hdone1])]
          simp [hr]
        · by_cases h0 : s.buckets.length = 0
          · omega
          · have h1 : 1 ≤ s1.buckets.length := hposlen (by omega)
            omega
    · -- a question is pending: answer it and recurse
      have hdone1' : s1.done = false := hdone1.trans hdone
      obtain ⟨q1, q2⟩ := q
      have hjoin1 : bucketsElems s1 = a ++ (b ++ rest.flatMap id) := by
        rw [bucketsElems, hb1]
        simp
      have hnodup1 : (bucketsElems s1).Nodup := hp1.nodup_iff.mpr hnodup
      have hne12 : q1 ≠ q2 := by
        rw [hjoin1] at hnodup1
        have hdisj := List.disjoint_of_nodup_append hnodup1
        intro hc
        subst hc
        exact hdisj hqa (List.mem_append_left _ hqb)
      have hcons : (oracle q1 q2 = Ordering.Lower ∧ q1 < q2) ∨
          (oracle q1 q2 = Ordering.Higher ∧ q2 < q1) := by
        rcases lt_or_gt_of_ne hne12 with hlt | hgt
        · exact Or.inl ⟨(horacle q1 q2 hne12).1 hlt, hlt⟩
        · exact Or.inr ⟨(horacle q1 q2 hne12).2 hgt, hgt⟩
      obtain ⟨tb, htb, hwfb, hsoundb, hμb, hdsb⟩ :=
        (order_loop_success ofuel).1 s.table q1 q2 (oracle q1 q2) hwf hsound hunk
          (by rcases hcons with ⟨he, hl⟩ | ⟨he, hl⟩
              · exact Or.inl ⟨he, hl⟩
              · exact Or.inr ⟨he, hl⟩) hofuel
      have hclb : Closed tb := order_ok_closed ⟨hwf, hcl⟩ htb
      have hq1len : 2 ≤ s1.buckets.length := by
        rw [hb1]
        simp
      obtain ⟨r, qs, m, hrec, hm⟩ := ih { s1 with table := tb, question := none }
        ((q1, q2) :: qs0) (m0 + c) hwfb hclb hsoundb
        (by simpa using hdsb.trans hdsT)
        (by simpa [bucketsElems] using hp1.trans hperm)
        rfl (by simpa using hdone1')
        (by show unknownCount tb ≤ ofuel
            omega)
        (by show unknownCount tb + 2 ≤ n
            omega)
      refine ⟨r, qs, m, ?_, ?_⟩
      · rw [BaseAgent.process]
        rw [if_neg (by simp [hdone])]
        simp only [hsort, hq1, htabeq, htb]
        exact hrec
      · have hlen2 : ({ s1 with table := tb, question := none } : Sort' α).buckets.length
            = s1.buckets.length := rfl
        rw [hlen2] at hm
        omega

end Termination

/-! ### Claim C6 -/

/-- C6: termination — for every finite duplicate-free dataset and every oracle
that answers each pending question with a definite value consistent with a
fixed total order (modelled by a linear order on the element type), the driver
loop `BaseAgent.process` terminates in a done state (it returns a result), and
over the whole run at most `N - 1` merges complete successfully: each
successful merge removes one bucket, from the `N` initial singletons down to
one. -/
theorem claimC6 [LinearOrder α] {ds : List α} (hnd : ds.Nodup)
    {oracle : α → α → Ordering}
    (horacle : ∀ a b : α, a ≠ b →
      (a < b → oracle a b = Ordering.Lower) ∧ (b < a → oracle a b = Ordering.Higher)) :
    ∃ (ofuel lfuel : Nat) (r : List α) (qs : List (α × α)) (m : Nat),
      BaseAgent.run oracle ofuel lfuel ds = some (r, qs, m) ∧ m ≤ ds.length - 1 := by
  obtain ⟨r, qs, m, hrun, hm⟩ := process_terminates hnd horacle
    (unknownCount (TransitivityTable.init ds))
    (unknownCount (TransitivityTable.init ds) + 2)
    (Sort'.init ds) [] 0
    (wf_init hnd) (closed_init ds) (sound_init ds) rfl
    (by rw [bucketsElems_init])
    rfl rfl (Nat.le_refl _) (Nat.le_refl _)
  refine ⟨unknownCount (TransitivityTable.init ds),
    unknownCount (TransitivityTable.init ds) + 2, r, qs, m, ?_, ?_⟩
  · rw [BaseAgent.run]
    exact hrun
  · have hlen : (Sort'.init ds).buckets.length = ds.length := by
      rw [Sort'.init]
      simp
    omega

/-- Witness for C6: the run over `[0, 1, 2]` with the canonical consistent
oracle terminates with at most two merges. -/
theorem claimC6_witness :
    ∃ (ofuel lfuel : Nat) (r : List Nat) (qs : List (Nat × Nat)) (m : Nat),
      BaseAgent.run (fun x y : Nat => if x < y then Ordering.Lower else Ordering.Higher)
        ofuel lfuel [0, 1, 2] = some (r, qs, m) ∧ m ≤ [0, 1, 2].length - 1 :=
  claimC6 (by decide) (by
    intro a b hne
    exact ⟨fun h => if_pos h, fun h => if_neg (by omega)⟩)

end InteractiveSort
